import Mathlib

/-!
Verification development for the note-translation pipeline of the
`obsidian-translate-mcp-server` repository.

Strings of the TypeScript source are modelled as lists of characters
(`Str`), the filesystem as an association list from absolute path strings
to file records, and the external text-generation capability as an
explicit function parameter.  Every definition is a direct translation of
the corresponding source function; spec-modelled definitions (for the one
source file the repository imports but does not ship) are marked as such
in their doc comments.
-/

set_option maxRecDepth 100000

namespace ObsidianTranslate

/-- Characters of a JavaScript string, modelled as a list of Unicode characters. -/
abbrev Str := List Char

/-- Decidable equality for `Except` results, used to state concrete runs. -/
instance {ε α : Type} [DecidableEq ε] [DecidableEq α] : DecidableEq (Except ε α) :=
  fun a b =>
    match a, b with
    | .ok x, .ok y =>
      if h : x = y then .isTrue (by rw [h])
      else .isFalse (by intro hc; cases hc; exact h rfl)
    | .error x, .error y =>
      if h : x = y then .isTrue (by rw [h])
      else .isFalse (by intro hc; cases hc; exact h rfl)
    | .ok _, .error _ => .isFalse (by intro hc; cases hc)
    | .error _, .ok _ => .isFalse (by intro hc; cases hc)

/-- The backtick character. -/
def bq : Char := Char.ofNat 96

/-- The dollar character, special in JavaScript replacement strings. -/
def dollar : Char := Char.ofNat 36

/-- The backslash character. -/
def bslash : Char := Char.ofNat 92

/-- The newline character. -/
def nl : Char := Char.ofNat 10

/-- Split a string at the first occurrence of `pat`: returns the part before
the first occurrence and the part after it, or `none` when `pat` does not
occur.  This is the search performed by JavaScript
`String.prototype.replace` with a string pattern (first occurrence only). -/
def splitOnFirst (s pat : Str) : Option (Str × Str) :=
  if pat.isPrefixOf s then some ([], s.drop pat.length)
  else
    match s with
    | [] => none
    | c :: t => (splitOnFirst t pat).map (fun p => (c :: p.1, p.2))

/-- Whether `pat` occurs as a contiguous substring of `s`. -/
def hasSub (s pat : Str) : Bool := (splitOnFirst s pat).isSome

/-- Fuel-driven decimal rendering of a natural number (least significant digit
last), structurally recursive so that it evaluates in the kernel. -/
def natStrGo (fuel n : Nat) : Str :=
  match fuel with
  | 0 => []
  | fuel + 1 =>
    if n < 10 then [Char.ofNat (48 + n)]
    else natStrGo fuel (n / 10) ++ [Char.ofNat (48 + n % 10)]

/-- Decimal rendering of a natural number, as produced by JavaScript template
interpolation of a number counter. -/
def natStr (n : Nat) : Str := natStrGo (n + 1) n

/-- The fixed marker prefix of inline-code placeholders
(`__INLINE_CODE_<n>__` in the source). -/
def markerI : Str := "__INLINE_CODE_".data

/-- The fixed marker prefix of code-block placeholders
(`__CODE_BLOCK_<n>__` in the source). -/
def markerB : Str := "__CODE_BLOCK_".data

/-- The inline-code placeholder produced for counter value `k`. -/
def phI (k : Nat) : Str := markerI ++ natStr k ++ "__".data

/-- The code-block placeholder produced for counter value `k`. -/
def phB (k : Nat) : Str := markerB ++ natStr k ++ "__".data

/-- Whether a character is not a backtick (the character class `[^`]` of the
inline-code regex). -/
def notBq (c : Char) : Bool := if c = bq then false else true

/-- Attempt to match the regex `` `([^`]+)` `` immediately after an opening
backtick: `rest` is the text following that backtick; on success returns the
captured run (nonempty, backtick-free) and the text after the closing
backtick. -/
def inlineHead (rest : Str) : Option (Str × Str) :=
  match rest.dropWhile notBq with
  | c :: after =>
    let run := rest.takeWhile notBq
    if run.isEmpty then none
    else if c = bq then some (run, after) else none
  | [] => none

/-- Fuel-driven scanner for the first `replace` in `protectCodeBlocks`
(source `translation.ts`): global, leftmost scan of the regex
`` /`([^`]+)`/g ``, replacing each match with `__INLINE_CODE_<k>__` and
recording `(placeholder, match)` pairs in order.  Returns the rewritten
text, the recorded pairs, and the final counter. -/
def inlinePassGo (fuel : Nat) (s : Str) (k : Nat) : Str × List (Str × Str) × Nat :=
  match fuel with
  | 0 => (s, [], k)
  | fuel + 1 =>
    match s with
    | [] => ([], [], k)
    | c :: rest =>
      if c = bq then
        match inlineHead rest with
        | some (run, after) =>
          let r := inlinePassGo fuel after (k + 1)
          (phI k ++ r.1, (phI k, bq :: (run ++ [bq])) :: r.2.1, r.2.2)
        | none =>
          let r := inlinePassGo fuel rest k
          (c :: r.1, r.2)
      else
        let r := inlinePassGo fuel rest k
        (c :: r.1, r.2)

/-- The inline-code pass of `protectCodeBlocks` (adequately fuelled). -/
def inlinePass (s : Str) (k : Nat) : Str × List (Str × Str) × Nat :=
  inlinePassGo (s.length + 1) s k

/-- The three-backtick fence delimiter. -/
def fence : Str := [bq, bq, bq]

/-- Whether a character belongs to the character class `[\\s\\S]` of the
source's fenced-block regex.  Because the backslashes are doubled in the
source, this class contains literally the backslash, `s` and `S` — not
every character. -/
def classC (c : Char) : Bool := c = bslash || c = 's' || c = 'S'

/-- Fuel-driven lazy scan for the interior of a fenced-block match: consume
characters of the class `[\\s\\S]` until a closing fence, preferring the
shortest interior (the regex quantifier is non-greedy). -/
def blockAuxGo : Nat → Str → Str → Option (Str × Str)
  | 0, _, _ => none
  | _ + 1, [], _ => none
  | fuel + 1, c :: t', acc =>
    if fence.isPrefixOf (c :: t') then some (acc.reverse, (c :: t').drop 3)
    else if classC c then blockAuxGo fuel t' (c :: acc) else none

/-- Attempt to match the regex ``/```[\\s\\S]*?```/`` at the start of `s`;
on success, returns the interior and the text after the closing fence. -/
def blockHead (s : Str) : Option (Str × Str) :=
  if fence.isPrefixOf s then blockAuxGo (s.length + 1) (s.drop 3) [] else none

/-- Fuel-driven scanner for the second `replace` in `protectCodeBlocks`:
global, leftmost scan of ``/```[\\s\\S]*?```/g`` over the output of the
inline pass, replacing each match with `__CODE_BLOCK_<k>__`. -/
def blockPassGo (fuel : Nat) (s : Str) (k : Nat) : Str × List (Str × Str) × Nat :=
  match fuel with
  | 0 => (s, [], k)
  | fuel + 1 =>
    match s with
    | [] => ([], [], k)
    | c :: rest =>
      match blockHead (c :: rest) with
      | some (interior, after) =>
        let r := blockPassGo fuel after (k + 1)
        (phB k ++ r.1, (phB k, fence ++ interior ++ fence) :: r.2.1, r.2.2)
      | none =>
        let r := blockPassGo fuel rest k
        (c :: r.1, r.2)

/-- The fenced-block pass of `protectCodeBlocks` (adequately fuelled). -/
def blockPass (s : Str) (k : Nat) : Str × List (Str × Str) × Nat :=
  blockPassGo (s.length + 1) s k

/-- `protectCodeBlocks` from `translation.ts`: first the inline-code regex
is replaced globally over the whole content, then the fenced-block regex is
replaced globally over the result, with one shared counter; the recorded
`(placeholder, original)` pairs keep insertion order (all inline pairs, then
all block pairs). -/
def protectCodeBlocks (content : Str) : Str × List (Str × Str) :=
  let i := inlinePass content 0
  let b := blockPass i.1 i.2.2
  (b.1, i.2.1 ++ b.2.1)

/-- Expansion of JavaScript replacement-string patterns (`$$`, `$&`, `` $` ``,
`$'`) performed by `String.prototype.replace`; `matched` is the matched
substring, `before` and `after` the surrounding context. -/
def processDollar (rep matched before after : Str) : Str :=
  match rep with
  | [] => []
  | c :: t =>
    if c = dollar then
      match t with
      | d :: t' =>
        if d = dollar then dollar :: processDollar t' matched before after
        else if d = '&' then matched ++ processDollar t' matched before after
        else if d = bq then before ++ processDollar t' matched before after
        else if d.toNat = 39 then after ++ processDollar t' matched before after
        else c :: d :: processDollar t' matched before after
      | [] => [c]
    else c :: processDollar t matched before after

/-- JavaScript `s.replace(pat, rep)` with string arguments: replaces the
first occurrence of `pat`, expanding `$`-patterns in `rep`. -/
def jsReplaceFirst (s pat rep : Str) : Str :=
  match splitOnFirst s pat with
  | none => s
  | some (a, b) => a ++ processDollar rep pat a b ++ b

/-- `restoreCodeBlocks` from `translation.ts`: for each recorded pair, in
insertion order, replace the placeholder by the original text using
JavaScript `replace` (first occurrence only). -/
def restoreCodeBlocks (content : Str) (placeholders : List (Str × Str)) : Str :=
  placeholders.foldl (fun acc p => jsReplaceFirst acc p.1 p.2) content

/-! ### Basic facts about the scanners -/

theorem notBq_iff {c : Char} : notBq c = true ↔ c ≠ bq := by
  unfold notBq
  by_cases hc : c = bq <;> simp [hc]

theorem takeWhile_append_of_all {p : Char → Bool} {s : Str} (t : Str)
    (h : ∀ c ∈ s, p c) : (s ++ t).takeWhile p = s ++ t.takeWhile p := by
  induction s with
  | nil => rfl
  | cons c s ih =>
    have hc : p c = true := h c (by simp)
    simp only [List.cons_append, List.takeWhile_cons, hc, if_true]
    rw [ih (fun c hc => h c (by simp [hc]))]

theorem dropWhile_head_not {p : Char → Bool} {l after : Str} {c : Char}
    (h : l.dropWhile p = c :: after) : p c = false := by
  induction l with
  | nil => cases h
  | cons x xs ih =>
    rw [List.dropWhile_cons] at h
    by_cases hx : p x
    · rw [if_pos hx] at h; exact ih h
    · rw [if_neg hx] at h
      cases h
      simpa using hx

theorem inlineHead_some {rest run after : Str}
    (h : inlineHead rest = some (run, after)) :
    rest = run ++ bq :: after ∧ run ≠ [] ∧ ∀ c ∈ run, c ≠ bq := by
  unfold inlineHead at h
  rcases hd : rest.dropWhile notBq with - | ⟨c, t⟩
  · rw [hd] at h; cases h
  · rw [hd] at h
    have hc : c = bq := by
      have := dropWhile_head_not hd
      unfold notBq at this
      by_cases hcb : c = bq
      · exact hcb
      · rw [if_neg hcb] at this; cases this
    by_cases he : (rest.takeWhile notBq).isEmpty
    · simp only [he, if_true] at h; cases h
    · simp only [he, Bool.false_eq_true, if_false, hc, if_true] at h
      obtain ⟨h1, h2⟩ := Prod.mk.injEq .. ▸ Option.some.inj h
      refine ⟨?_, ?_, ?_⟩
      · rw [← h1, ← h2, ← hc]
        conv_lhs => rw [← List.takeWhile_append_dropWhile notBq rest]
        rw [hd]
      · intro hr
        rw [h1, hr] at he
        simp at he
      · intro a ha
        rw [← h1] at ha
        exact notBq_iff.mp (List.mem_takeWhile_imp ha)

theorem inlineHead_some_length {rest run after : Str}
    (h : inlineHead rest = some (run, after)) :
    rest.length = run.length + after.length + 1 ∧ 1 ≤ run.length := by
  obtain ⟨h1, h2, -⟩ := inlineHead_some h
  constructor
  · rw [h1]
    simp
    omega
  · cases run with
    | nil => exact absurd rfl h2
    | cons _ _ => simp

theorem inlinePassGo_match {f k : Nat} {rest run after : Str}
    (h : inlineHead rest = some (run, after)) :
    inlinePassGo (f + 1) (bq :: rest) k =
      (phI k ++ (inlinePassGo f after (k + 1)).1,
       (phI k, bq :: (run ++ [bq])) :: (inlinePassGo f after (k + 1)).2.1,
       (inlinePassGo f after (k + 1)).2.2) := by
  conv_lhs => rw [inlinePassGo]
  rw [if_pos rfl, h]

theorem inlinePassGo_emit {f k : Nat} {c : Char} {rest : Str}
    (h : c = bq → inlineHead rest = none) :
    inlinePassGo (f + 1) (c :: rest) k =
      (c :: (inlinePassGo f rest k).1, (inlinePassGo f rest k).2) := by
  conv_lhs => rw [inlinePassGo]
  by_cases hc : c = bq
  · rw [if_pos hc, h hc]
  · rw [if_neg hc]

theorem inlinePassGo_fuel {f₁ : Nat} : ∀ {f₂ : Nat} {s : Str} {k : Nat},
    s.length < f₁ → s.length < f₂ →
    inlinePassGo f₁ s k = inlinePassGo f₂ s k := by
  induction f₁ using Nat.strong_induction_on with
  | _ f₁ ih =>
    intro f₂ s k h₁ h₂
    match f₁, h₁ with
    | f₁ + 1, h₁ =>
      match f₂, h₂ with
      | f₂ + 1, h₂ =>
        cases s with
        | nil => rw [inlinePassGo, inlinePassGo]
        | cons c rest =>
          simp only [List.length_cons] at h₁ h₂
          by_cases hc : c = bq
          · subst hc
            rcases hih : inlineHead rest with - | ⟨run, after⟩
            · have e : inlinePassGo f₁ rest k = inlinePassGo f₂ rest k :=
                ih f₁ (Nat.lt_succ_self _) (by omega) (by omega)
              rw [inlinePassGo_emit (fun _ => hih), inlinePassGo_emit (fun _ => hih), e]
            · obtain ⟨hlen, hrun⟩ := inlineHead_some_length hih
              have e : inlinePassGo f₁ after (k + 1) = inlinePassGo f₂ after (k + 1) :=
                ih f₁ (Nat.lt_succ_self _) (by omega) (by omega)
              rw [inlinePassGo_match hih, inlinePassGo_match hih, e]
          · have e : inlinePassGo f₁ rest k = inlinePassGo f₂ rest k :=
              ih f₁ (Nat.lt_succ_self _) (by omega) (by omega)
            rw [inlinePassGo_emit (fun hcb => absurd hcb hc),
              inlinePassGo_emit (fun hcb => absurd hcb hc), e]

theorem inlinePass_nil (k : Nat) : inlinePass [] k = ([], [], k) := rfl

theorem inlinePass_emit {c : Char} {rest : Str} (k : Nat)
    (h : c = bq → inlineHead rest = none) :
    inlinePass (c :: rest) k =
      (c :: (inlinePass rest k).1, (inlinePass rest k).2) := by
  unfold inlinePass
  simp only [List.length_cons]
  exact inlinePassGo_emit h

theorem inlinePass_match {rest run after : Str} (k : Nat)
    (h : inlineHead rest = some (run, after)) :
    inlinePass (bq :: rest) k =
      (phI k ++ (inlinePass after (k + 1)).1,
       (phI k, bq :: (run ++ [bq])) :: (inlinePass after (k + 1)).2.1,
       (inlinePass after (k + 1)).2.2) := by
  obtain ⟨hlen, hrun⟩ := inlineHead_some_length h
  unfold inlinePass
  simp only [List.length_cons]
  rw [inlinePassGo_match h, inlinePassGo_fuel (by omega) (Nat.lt_succ_self _)]

theorem blockAuxGo_some {f : Nat} : ∀ {t acc i a : Str},
    blockAuxGo f t acc = some (i, a) →
    ∃ mid, t = mid ++ fence ++ a ∧ i = acc.reverse ++ mid ∧ ∀ c ∈ mid, classC c := by
  induction f with
  | zero => intro t acc i a h; cases h
  | succ f ih =>
    intro t acc i a h
    cases t with
    | nil => rw [blockAuxGo] at h; cases h
    | cons c t' =>
      rw [blockAuxGo] at h
      by_cases hp : fence.isPrefixOf (c :: t')
      · rw [if_pos hp] at h
        obtain ⟨h1, h2⟩ := Prod.mk.injEq .. ▸ Option.some.inj h
        refine ⟨[], ?_, ?_, by simp⟩
        · obtain ⟨u, hu⟩ := List.isPrefixOf_iff_prefix.mp hp
          rw [← h2, ← hu]
          simp [fence]
        · simp [← h1]
      · rw [if_neg hp] at h
        by_cases hcc : classC c
        · rw [if_pos hcc] at h
          obtain ⟨mid, hm1, hm2, hm3⟩ := ih h
          refine ⟨c :: mid, by simp [hm1], ?_, ?_⟩
          · rw [hm2]
            simp
          · intro x hx
            rcases List.mem_cons.mp hx with hx | hx
            · rw [hx]; exact hcc
            · exact hm3 x hx
        · rw [if_neg hcc] at h; cases h

theorem blockHead_some {s i a : Str}
    (h : blockHead s = some (i, a)) :
    s = fence ++ i ++ fence ++ a ∧ ∀ c ∈ i, classC c := by
  unfold blockHead at h
  by_cases hp : fence.isPrefixOf s
  · rw [if_pos hp] at h
    obtain ⟨mid, hm1, hm2, hm3⟩ := blockAuxGo_some h
    obtain ⟨u, hu⟩ := List.isPrefixOf_iff_prefix.mp hp
    have hdrop : s.drop 3 = u := by
      rw [← hu]
      have : fence.length = 3 := rfl
      rw [← this, List.drop_left]
    rw [hdrop] at hm1
    simp only [List.reverse_nil, List.nil_append] at hm2
    subst hm2
    constructor
    · rw [← hu, hm1]
      simp
    · exact hm3
  · rw [if_neg hp] at h; cases h

theorem blockHead_some_length {s i a : Str}
    (h : blockHead s = some (i, a)) :
    s.length = i.length + a.length + 6 := by
  obtain ⟨h1, -⟩ := blockHead_some h
  rw [h1]
  simp [fence]
  omega

theorem blockHead_none_of_head {c : Char} {rest : Str}
    (h : c ≠ bq) : blockHead (c :: rest) = none := by
  unfold blockHead
  rw [if_neg]
  intro hp
  obtain ⟨u, hu⟩ := List.isPrefixOf_iff_prefix.mp hp
  rw [fence] at hu
  simp at hu
  exact h hu.1.symm

theorem blockPassGo_match {f k : Nat} {s i a : Str}
    (h : blockHead s = some (i, a)) (hs : s ≠ []) :
    blockPassGo (f + 1) s k =
      (phB k ++ (blockPassGo f a (k + 1)).1,
       (phB k, fence ++ i ++ fence) :: (blockPassGo f a (k + 1)).2.1,
       (blockPassGo f a (k + 1)).2.2) := by
  cases s with
  | nil => exact absurd rfl hs
  | cons c rest =>
    conv_lhs => rw [blockPassGo]
    rw [h]

theorem blockPassGo_emit {f k : Nat} {c : Char} {rest : Str}
    (h : blockHead (c :: rest) = none) :
    blockPassGo (f + 1) (c :: rest) k =
      (c :: (blockPassGo f rest k).1, (blockPassGo f rest k).2) := by
  conv_lhs => rw [blockPassGo]
  rw [h]

theorem blockPassGo_fuel {f₁ : Nat} : ∀ {f₂ : Nat} {s : Str} {k : Nat},
    s.length < f₁ → s.length < f₂ →
    blockPassGo f₁ s k = blockPassGo f₂ s k := by
  induction f₁ using Nat.strong_induction_on with
  | _ f₁ ih =>
    intro f₂ s k h₁ h₂
    match f₁, h₁ with
    | f₁ + 1, h₁ =>
      match f₂, h₂ with
      | f₂ + 1, h₂ =>
        cases s with
        | nil => rw [blockPassGo, blockPassGo]
        | cons c rest =>
          simp only [List.length_cons] at h₁ h₂
          rcases hbh : blockHead (c :: rest) with - | ⟨i, a⟩
          · have e : blockPassGo f₁ rest k = blockPassGo f₂ rest k :=
              ih f₁ (Nat.lt_succ_self _) (by omega) (by omega)
            rw [blockPassGo_emit hbh, blockPassGo_emit hbh, e]
          · have hlen := blockHead_some_length hbh
            simp only [List.length_cons] at hlen
            have e : blockPassGo f₁ a (k + 1) = blockPassGo f₂ a (k + 1) :=
              ih f₁ (Nat.lt_succ_self _) (by omega) (by omega)
            rw [blockPassGo_match hbh (by simp), blockPassGo_match hbh (by simp), e]

theorem blockPass_nil (k : Nat) : blockPass [] k = ([], [], k) := rfl

theorem blockPass_emit {c : Char} {rest : Str} (k : Nat)
    (h : blockHead (c :: rest) = none) :
    blockPass (c :: rest) k =
      (c :: (blockPass rest k).1, (blockPass rest k).2) := by
  unfold blockPass
  simp only [List.length_cons]
  exact blockPassGo_emit h

theorem blockPass_match {s i a : Str} (k : Nat)
    (h : blockHead s = some (i, a)) (hs : s ≠ []) :
    blockPass s k =
      (phB k ++ (blockPass a (k + 1)).1,
       (phB k, fence ++ i ++ fence) :: (blockPass a (k + 1)).2.1,
       (blockPass a (k + 1)).2.2) := by
  have hlen := blockHead_some_length h
  unfold blockPass
  rw [blockPassGo_match h hs, blockPassGo_fuel (by omega) (Nat.lt_succ_self _)]

theorem inlineHead_cons_bq (x : Str) : inlineHead (bq :: x) = none := by
  unfold inlineHead
  have hb : notBq bq = false := rfl
  rw [List.dropWhile_cons, hb]
  simp only [Bool.false_eq_true, if_false, List.takeWhile_cons, hb, List.isEmpty_nil, if_true]

theorem inlineHead_nil : inlineHead [] = none := rfl

theorem dropWhile_append_of_all {p : Char → Bool} {s : Str} (t : Str)
    (h : ∀ c ∈ s, p c) : (s ++ t).dropWhile p = t.dropWhile p := by
  induction s with
  | nil => rfl
  | cons c s ih =>
    have hc : p c = true := h c (by simp)
    simp only [List.cons_append, List.dropWhile_cons, hc, if_true]
    exact ih (fun c hc => h c (by simp [hc]))

/-- Claim C5 counterexample body: a fenced code block with a plain one-character
interior. -/
def fenceCexBody : Str := "```x```".data

/-- Claim C5: the claim states that `protectCodeBlocks` matches fenced blocks
before inline spans, so that inline-looking spans inside a fenced block are
never protected as inline code.  At the concrete body ```` ```x``` ```` the
code does the opposite: the inline regex runs first over the whole body and
captures `` `x` `` (the interior of the fence plus one backtick of each
delimiter) as an inline span, and no fenced-block pair is recorded at all. -/
theorem protect_fence_not_block_first_cex :
    protectCodeBlocks fenceCexBody =
      ("``__INLINE_CODE_0__``".data, [("__INLINE_CODE_0__".data, "`x`".data)]) := by
  decide

/-- Claim C5 (amended): for every fenced block ```` ```s``` ```` with nonempty
backtick-free interior `s`, `protectCodeBlocks` records exactly one span — an
inline-code span consisting of the interior together with one backtick of each
delimiter — because the inline regex is applied first over the whole body; the
fenced-block regex never fires on the remainder. -/
theorem protect_inline_pass_first (s : Str) (hne : s ≠ [])
    (hbq : ∀ c ∈ s, c ≠ bq) :
    protectCodeBlocks (fence ++ s ++ fence) =
      (bq :: bq :: (phI 0 ++ [bq, bq]), [(phI 0, bq :: (s ++ [bq]))]) := by
  have hall : ∀ c ∈ s, notBq c = true := fun c hc => notBq_iff.mpr (hbq c hc)
  have h3 : inlineHead (s ++ fence) = some (s, [bq, bq]) := by
    unfold inlineHead
    rw [dropWhile_append_of_all _ hall]
    have hdf : fence.dropWhile notBq = fence := rfl
    rw [hdf]
    show (if (List.takeWhile notBq (s ++ fence)).isEmpty = true then none
      else if bq = bq then some (List.takeWhile notBq (s ++ fence), [bq, bq]) else none) = _
    rw [takeWhile_append_of_all _ hall]
    have htf : fence.takeWhile notBq = [] := rfl
    rw [htf, List.append_nil]
    rw [if_neg (by simpa using hne), if_pos rfl]
  have e1 : fence ++ s ++ fence = bq :: bq :: bq :: (s ++ fence) := by
    simp [fence]
  rw [e1]
  unfold protectCodeBlocks
  rw [inlinePass_emit 0 (fun _ => inlineHead_cons_bq _),
    inlinePass_emit 0 (fun _ => inlineHead_cons_bq _),
    inlinePass_match 0 h3]
  have e2 : inlinePass [bq, bq] 1 = ([bq, bq], [], 1) := rfl
  rw [e2]
  have e3 : blockPass (bq :: bq :: (phI 0 ++ [bq, bq])) 1
      = (bq :: bq :: (phI 0 ++ [bq, bq]), [], 1) := rfl
  simp [e3]

/-- Witness for the amended claim C5 theorem at the interior `"x"`. -/
theorem protect_inline_pass_first_witness :
    protectCodeBlocks (fence ++ "x".data ++ fence) =
      (bq :: bq :: (phI 0 ++ [bq, bq]), [(phI 0, bq :: ("x".data ++ [bq]))]) :=
  protect_inline_pass_first "x".data (by decide) (by decide)

/-- Claim C4 counterexample body: it contains one inline code span, and its
plain text happens to contain the first placeholder token the guard will
generate. -/
def roundtripCexBody : Str := "__INLINE_CODE_0__ `a`".data

/-- Claim C4: the claim states `restore(protect(body)) == body` for every
body.  At this concrete body the placeholder `__INLINE_CODE_0__` generated
for the span `` `a` `` also occurs literally in the body text, so `restore`
replaces the wrong (first) occurrence and the round trip fails. -/
theorem protect_restore_not_roundtrip_cex :
    restoreCodeBlocks (protectCodeBlocks roundtripCexBody).1
      (protectCodeBlocks roundtripCexBody).2 ≠ roundtripCexBody := by
  decide

/-! ### Documents, front matter and the translation service -/

/-- Whether a character counts as whitespace for JavaScript `String.trim`
(ASCII whitespace; the exotic Unicode space characters play no role here). -/
def wsChar (c : Char) : Bool :=
  c = ' ' || c = Char.ofNat 9 || c = Char.ofNat 10 || c = Char.ofNat 13 ||
  c = Char.ofNat 11 || c = Char.ofNat 12

/-- JavaScript `String.prototype.trim`. -/
def jsTrim (s : Str) : Str :=
  ((s.dropWhile wsChar).reverse.dropWhile wsChar).reverse

/-- Split a string on every occurrence of a separator character. -/
def splitOnChar (sep : Char) : Str → List Str
  | [] => [[]]
  | c :: t =>
    match splitOnChar sep t with
    | [] => [[c]]
    | h :: r => if c = sep then [] :: h :: r else (c :: h) :: r

/-- A front-matter value: either a scalar string or a flat mapping of string
leaves (the shape the translation service writes for its `translated` entry). -/
inductive FMVal where
  | s (v : Str)
  | m (kvs : List (Str × Str))
deriving DecidableEq, Repr

/-- A parsed front-matter mapping, in key order. -/
abbrev FrontMatter := List (Str × FMVal)

/-- The opening front-matter delimiter line. -/
def fmOpen : Str := "---\n".data

/-- The closing front-matter delimiter (newline, delimiter line, newline). -/
def fmClose : Str := "\n---\n".data

/-- Parse the raw line block of a front-matter section as `key: value`
scalar entries (the only shape this system reads back). -/
def parseFMLines (fmRaw : Str) : FrontMatter :=
  (splitOnChar nl fmRaw).foldr
    (fun line acc =>
      match splitOnFirst line ":".data with
      | some (k, v) => (jsTrim k, FMVal.s (jsTrim v)) :: acc
      | none => acc)
    []

/-- The `matter(content)` call of the `gray-matter` library as used by
`translateContent`: a document beginning with a delimited metadata block
yields the parsed block and the remainder as body; otherwise the data is
empty and the body is the whole document. -/
def matterSplit (content : Str) : FrontMatter × Str :=
  if fmOpen.isPrefixOf content then
    let rest := content.drop 4
    match splitOnFirst rest fmClose with
    | some (fmRaw, body) => (parseFMLines fmRaw, body)
    | none =>
      if ("\n---".data).isSuffixOf rest then
        (parseFMLines (rest.take (rest.length - 4)), [])
      else ([], content)
  else ([], content)

/-- Serialize a front-matter mapping as the line block of a metadata section. -/
def yamlOfFM (fm : FrontMatter) : Str :=
  fm.foldr
    (fun kv acc =>
      (match kv.2 with
       | FMVal.s v => kv.1 ++ ": ".data ++ v ++ [nl]
       | FMVal.m kvs =>
         kv.1 ++ ":".data ++ [nl] ++
           kvs.foldr (fun p a => "  ".data ++ p.1 ++ ": ".data ++ p.2 ++ [nl] ++ a) [])
      ++ acc)
    []

/-- The `matter.stringify(content, data)` call of `gray-matter`: the metadata
block followed by the body. -/
def matterStringify (body : Str) (fm : FrontMatter) : Str :=
  fmOpen ++ yamlOfFM fm ++ "---".data ++ [nl] ++ body

/-- JavaScript object-spread update `{...fm, k: v}`: an existing key keeps
its position and gets the new value; a new key is appended. -/
def fmSet (fm : FrontMatter) (k : Str) (v : FMVal) : FrontMatter :=
  if fm.any (fun p => p.1 = k) then
    fm.map (fun p => if p.1 = k then (k, v) else p)
  else fm ++ [(k, v)]

/-- The error codes of `types/index.ts`. -/
inductive ErrorCode where
  | INVALID_URL
  | FILE_NOT_FOUND
  | VAULT_MISMATCH
  | TRANSLATION_FAILED
  | BACKUP_FAILED
  | PERMISSION_DENIED
  | INVALID_PATH
deriving DecidableEq, Repr

/-- A thrown error: its code together with the rest of its message. -/
structure Err where
  code : ErrorCode
  msg : Str
deriving DecidableEq, Repr

/-- One segment of an external-generation response; the service reads only
the first segment and only when it is text-typed. -/
inductive RespSeg where
  | text (t : Str)
  | other
deriving DecidableEq, Repr

/-- The fixed model identifier the service requests. -/
def modelId : Str := "claude-3-haiku-20240307".data

/-- `createTranslationPrompt` from `translation.ts`: the instruction payload
embedding the (unguarded) body and the preservation rules. -/
def createTranslationPrompt (content targetLanguage : Str) : Str :=
  "以下のMarkdownテキストを".data ++ targetLanguage ++
  "に翻訳してください。\n\n翻訳時の注意事項：\n1. コードブロック（```で囲まれた部分）は翻訳しないでください\n2. WikiLink形式（[[リンク]]）とMarkdownリンク形式（[テキスト](URL)）は構造を保持してください\n3. 見出し（#）の階層構造は保持してください\n4. 箇条書きやナンバリングの形式は保持してください\n5. 自然で読みやすい".data
  ++ targetLanguage ++
  "に翻訳してください\n6. 技術用語は適切な日本語に翻訳するか、必要に応じて英語のまま残してください\n\n翻訳するテキスト：\n".data
  ++ content ++
  "\n\n翻訳されたテキストのみを出力してください。説明や追加のコメントは不要です。".data

/-- The `translated` metadata entry the service merges into the front matter. -/
def translatedValue (nowIso targetLanguage : Str) : FMVal :=
  FMVal.m [("date".data, nowIso), ("target_language".data, targetLanguage),
    ("model".data, modelId)]

/-- `translateContent` from `translation.ts`.  `gen` is the external
generation capability (prompt to response segments, or a failure), `nowIso`
the ISO rendering of the current time.  The body (after front-matter
separation) is embedded RAW in the prompt — `protectCodeBlocks` and
`restoreCodeBlocks` are never invoked by this function in the source — and
the first text segment of the response is used verbatim (falling back to the
raw body when the first segment is not text; an empty segment list makes the
property access `response.content[0].type` throw, which the surrounding
`catch` wraps into `TRANSLATION_FAILED`). -/
def translateContent (gen : Str → Except Str (List RespSeg)) (nowIso : Str)
    (content : Str) (targetLanguage : Str) : Except Err Str :=
  let fmBody := matterSplit content
  if jsTrim fmBody.2 = [] then .ok content
  else
    match gen (createTranslationPrompt fmBody.2 targetLanguage) with
    | .error e => .error ⟨.TRANSLATION_FAILED, "Translation failed: ".data ++ e⟩
    | .ok segs =>
      match segs with
      | RespSeg.text t :: _ =>
        .ok (matterStringify t
          (fmSet fmBody.1 "translated".data (translatedValue nowIso targetLanguage)))
      | RespSeg.other :: _ =>
        .ok (matterStringify fmBody.2
          (fmSet fmBody.1 "translated".data (translatedValue nowIso targetLanguage)))
      | [] => .error ⟨.TRANSLATION_FAILED, "Translation failed: TypeError".data⟩

/-- The Claim C2 generation capability: a model answer that translates the
whole prompt body, as a model that ignores the preservation instructions may. -/
def c2Gen : Str → Except Str (List RespSeg) := fun _ => .ok [RespSeg.text "TRANSLATED".data]

/-- The Claim C2 document body, containing one inline code span. -/
def c2Content : Str := "Run `ls` now".data

/-- Claim C2: the claim states that `translateContent` runs `protect` on the
body before the external call and `restore` afterwards, so every code region
of the input reappears unchanged in the result.  In the source the private
methods `protectCodeBlocks`/`restoreCodeBlocks` are never invoked: the raw
body is embedded in the prompt and the first text segment of the response is
returned verbatim.  With a generation capability that replaces the body
wholesale, the inline span `` `ls` `` of the input is absent from the result. -/
theorem translate_drops_protected_code :
    translateContent c2Gen "2024-01-01T00:00:00.000Z".data c2Content "English".data
      = .ok ("---\ntranslated:\n  date: 2024-01-01T00:00:00.000Z\n  target_language: English\n  model: claude-3-haiku-20240307\n---\nTRANSLATED".data)
    ∧ hasSub c2Content "`ls`".data = true
    ∧ hasSub ("---\ntranslated:\n  date: 2024-01-01T00:00:00.000Z\n  target_language: English\n  model: claude-3-haiku-20240307\n---\nTRANSLATED".data)
        "`ls`".data = false := by
  refine ⟨?_, by decide, by decide⟩
  decide

/-- Claim C8: for every document whose body (after front-matter separation)
is empty or whitespace-only, `translateContent` returns its input unchanged,
for EVERY generation capability — in particular for one that always fails —
so no external call can have been made. -/
theorem translate_empty_body_id (gen : Str → Except Str (List RespSeg))
    (nowIso content targetLanguage : Str)
    (h : jsTrim (matterSplit content).2 = []) :
    translateContent gen nowIso content targetLanguage = .ok content := by
  unfold translateContent
  rw [if_pos h]

/-- Witness for the Claim C8 theorem: a document consisting of only a
metadata block, run against a generation capability that always fails. -/
theorem translate_empty_body_id_witness :
    translateContent (fun _ => .error "unreachable".data) "t".data
      "---\ntitle: x\n---\n".data "English".data
      = .ok ("---\ntitle: x\n---\n".data) :=
  translate_empty_body_id _ _ _ _ (by decide)

/-! ### Node `path.posix` functions used by the Sandboxed Store -/

/-- Join a list of path segments with `/` separators. -/
def joinSegs : List Str → Str
  | [] => []
  | [s] => s
  | s :: r => s ++ '/' :: joinSegs r

/-- Node `path.posix.normalize`: collapse `.`, `..` and duplicate separators;
keep a leading `/` for absolute paths and a trailing `/` when one was present. -/
def pathNormalize (p : Str) : Str :=
  if p = [] then ".".data
  else
    let isAbs := p.head? = some '/'
    let trail := p.getLast? = some '/'
    let segs := (splitOnChar '/' p).filter (fun s => s ≠ [] && s ≠ ".".data)
    let stack := segs.foldl
      (fun st sg =>
        if sg = "..".data then
          match st.getLast? with
          | some l => if l = "..".data then st ++ [sg] else st.dropLast
          | none => if isAbs then st else [sg]
        else st ++ [sg])
      []
    let core := joinSegs stack
    let core := if isAbs then '/' :: core else core
    let core := if core = [] then ".".data else core
    if trail && core.getLast? ≠ some '/' then core ++ "/".data else core

/-- Node `path.posix.join` restricted to two arguments (the only arity the
store uses): concatenate the nonempty parts with `/` and normalize. -/
def pathJoin (a b : Str) : Str :=
  let parts := [a, b].filter (fun s => s ≠ [])
  if parts = [] then ".".data
  else pathNormalize (joinSegs parts)

/-- Node `path.posix.dirname`. -/
def dirname (p : Str) : Str :=
  if p = [] then ".".data
  else
    let hasRoot := p.head? = some '/'
    let afterTrail := p.reverse.dropWhile (fun c => c = '/')
    let find := afterTrail.dropWhile (fun c => c ≠ '/')
    if find.length ≤ 1 then (if hasRoot then "/".data else ".".data)
    else if hasRoot && find.length = 2 then "//".data
    else p.take (find.length - 1)

/-- Node `path.posix.extname`. -/
def extname (p : Str) : Str :=
  let name := (p.reverse.takeWhile (fun c => c ≠ '/')).reverse
  let revName := name.reverse
  let extRev := revName.takeWhile (fun c => c ≠ '.')
  if extRev.length = revName.length then []
  else if extRev.length + 1 = revName.length then []
  else if name = "..".data then []
  else '.' :: extRev.reverse

/-- Node `path.posix.basename(p, ext)` as called by `createBackup`. -/
def basenameExt (p ext : Str) : Str :=
  let name := (p.reverse.takeWhile (fun c => c ≠ '/')).reverse
  if ext ≠ [] && ext.isSuffixOf name && name ≠ ext then
    name.take (name.length - ext.length)
  else name

/-! ### The Sandboxed Store (`FileSystemHelper`, source file `file-system.ts`) -/

/-- A stored file: its content and its last-modified time in unix millis. -/
structure FSFile where
  content : Str
  mtime : Nat
deriving DecidableEq, Repr

/-- The filesystem: an association list from absolute path strings to files,
together with a write-permission oracle modelling I/O failures on write. -/
structure FSState where
  files : List (Str × FSFile)
  writeOk : Str → Bool

/-- Look up a key in the file list (first binding wins). -/
def fsGet (files : List (Str × FSFile)) (k : Str) : Option FSFile :=
  match files with
  | [] => none
  | (q, f) :: t => if q = k then some f else fsGet t k

/-- Overwrite or create the binding for a key. -/
def fsPut (files : List (Str × FSFile)) (k : Str) (f : FSFile) :
    List (Str × FSFile) :=
  (k, f) :: files.filter (fun p => p.1 ≠ k)

/-- `getAbsolutePath` from `file-system.ts`: join the caller path to the
configured vault root. -/
def getAbsolutePath (root p : Str) : Str := pathJoin root p

/-- `exists` from `file-system.ts`: `fs.access` succeeds; filesystem errors
mean `false`. -/
def existsFile (root : Str) (st : FSState) (p : Str) : Bool :=
  (fsGet st.files (getAbsolutePath root p)).isSome

/-- `readFile` from `file-system.ts`: read or fail with `FILE_NOT_FOUND`. -/
def readFile (root : Str) (st : FSState) (p : Str) : Except Err Str :=
  match fsGet st.files (getAbsolutePath root p) with
  | some f => .ok f.content
  | none => .error ⟨.FILE_NOT_FOUND, "Cannot read file ".data ++ p⟩

/-- `writeFile` from `file-system.ts`: write (creating parents, a no-op in
this model) or fail with `PERMISSION_DENIED`; a successful write makes the
content at the joined path exactly the argument. -/
def writeFile (root : Str) (st : FSState) (p content : Str) (now : Nat) :
    Except Err FSState :=
  let abs := getAbsolutePath root p
  if st.writeOk abs then .ok ⟨fsPut st.files abs ⟨content, now⟩, st.writeOk⟩
  else .error ⟨.PERMISSION_DENIED, "Cannot write file ".data ++ p⟩

/-- The backup record returned by `createBackup` (`BackupInfo` of
`types/index.ts`); `timestamp` is the ISO rendering of the backup time and
`size` the byte size reported by `fs.stat`. -/
structure BackupInfo where
  originalPath : Str
  backupPath : Str
  timestamp : Str
  size : Nat
deriving DecidableEq, Repr

/-- UTF-8 byte length of a string, as reported by `fs.stat().size` for a file
written with encoding `utf-8`. -/
def utf8Len (s : Str) : Nat := s.foldl (fun a c => a + c.utf8Size) 0

/-- `createBackup` from `file-system.ts`: read the current content, derive
the sibling name `<base>.backup-<unixMillis><ext>`, write the unchanged
content there and return the record; any failure (missing source, denied
write) becomes `BACKUP_FAILED`.  `now` is `Date.now()` and `isoOf` renders a
millisecond timestamp as `Date.toISOString` does. -/
def createBackup (root : Str) (st : FSState) (p : Str) (now : Nat)
    (isoOf : Nat → Str) : Except Err (BackupInfo × FSState) :=
  match fsGet st.files (getAbsolutePath root p) with
  | none => .error ⟨.BACKUP_FAILED, "Cannot create backup for ".data ++ p⟩
  | some f =>
    let ext := extname p
    let baseName := basenameExt p ext
    let dir := dirname p
    let backupFileName := baseName ++ ".backup-".data ++ natStr now ++ ext
    let backupPath := pathJoin dir backupFileName
    let backupAbs := getAbsolutePath root backupPath
    if st.writeOk backupAbs then
      .ok (⟨p, backupPath, isoOf now, utf8Len f.content⟩,
           ⟨fsPut st.files backupAbs ⟨f.content, now⟩, st.writeOk⟩)
    else .error ⟨.BACKUP_FAILED, "Cannot create backup for ".data ++ p⟩

/-- Whether `k` is a direct (depth-one) entry of the directory `dirAbs`. -/
def inDirDirect (dirAbs k : Str) : Bool :=
  (dirAbs ++ "/".data).isPrefixOf k &&
  !((k.drop (dirAbs.length + 1)).any (fun c => c = '/')) &&
  decide (dirAbs.length + 1 < k.length)

/-- `cleanupOldBackups` from `file-system.ts`: delete the direct entries of
the directory whose name contains `.backup-` and whose mtime is older than
the retention cutoff; never fails (errors are logged and swallowed). -/
def cleanupOldBackups (root : Str) (st : FSState) (dir : Str) (cutoff : Nat) :
    FSState :=
  let dirAbs := getAbsolutePath root dir
  ⟨st.files.filter (fun e =>
      !(inDirDirect dirAbs e.1 &&
        hasSub (e.1.drop (dirAbs.length + 1)) ".backup-".data &&
        decide (e.2.mtime < cutoff))),
   st.writeOk⟩

/-! ### The Resource Locator (`ObsidianUrlParser`)

The repository's sources import `utils/obsidian-url.js`, but that file is not
among the shipped sources; the parser and validators are therefore modelled
from the specification (§4.1). -/

/-- Value of a hexadecimal digit. -/
def hexVal (c : Char) : Option Nat :=
  if '0' ≤ c ∧ c ≤ '9' then some (c.toNat - 48)
  else if 'a' ≤ c ∧ c ≤ 'f' then some (c.toNat - 87)
  else if 'A' ≤ c ∧ c ≤ 'F' then some (c.toNat - 55)
  else none

/-- Percent-decoding of a query parameter; malformed escapes are kept
literally. -/
def percentDecode : Str → Str
  | [] => []
  | '%' :: a :: b :: t =>
    (match hexVal a, hexVal b with
     | some x, some y => Char.ofNat (16 * x + y) :: percentDecode t
     | _, _ => '%' :: percentDecode (a :: b :: t))
  | c :: t => c :: percentDecode t

/-- Split a query string into `key=value` pairs. -/
def parseQuery (q : Str) : List (Str × Str) :=
  (splitOnChar '&' q).map (fun part =>
    match splitOnFirst part "=".data with
    | some (k, v) => (k, v)
    | none => (part, []))

/-- First binding of a key among query parameters. -/
def lookupParam (params : List (Str × Str)) (k : Str) : Option Str :=
  match params with
  | [] => none
  | (q, v) :: t => if q = k then some v else lookupParam t k

/-- `ObsidianUrl` of `types/index.ts`: the raw vault and file parameters and
the decoded, separator-normalized path. -/
structure ObsidianUrl where
  vault : Str
  file : Str
  path : Str
deriving DecidableEq, Repr

/-- Modelled from the spec: `src` lacks `utils/obsidian-url.ts`, whose
`parse` §4.1 describes — fail with `MalformedAddress` (`INVALID_URL`) unless
the address uses the recognized scheme with the single supported `open`
action and carries both the `vault` and `file` query parameters;
percent-decode the path parameter and normalize path separators to forward
slashes. -/
def parseObsidianUrl (address : Str) : Except Err ObsidianUrl :=
  if ("obsidian://open?".data).isPrefixOf address then
    let params := parseQuery (address.drop 16)
    match lookupParam params "vault".data, lookupParam params "file".data with
    | some v, some f =>
      .ok ⟨v, f, (percentDecode f).map (fun c => if c = bslash then '/' else c)⟩
    | _, _ => .error ⟨.INVALID_URL, "Invalid Obsidian URL".data⟩
  else .error ⟨.INVALID_URL, "Invalid Obsidian URL".data⟩

/-- Modelled from the spec: `validateCollection` §4.1 — fail with
`CollectionMismatch` (`VAULT_MISMATCH`) unless the requested collection
equals the configured one, case-sensitively and exactly. -/
def validateVault (requested configured : Str) : Except Err Unit :=
  if requested = configured then .ok ()
  else .error ⟨.VAULT_MISMATCH, "Vault mismatch".data⟩

/-- Modelled from the spec: `validatePath` §4.1 — fail with `UnsafePath`
(`INVALID_PATH`) when the path contains a parent-reference segment or a home
reference, is absolute (leading separator or drive letter), or has a
dot-prefixed segment; the checks run in that order. -/
def validatePath (p : Str) : Except Err Unit :=
  if (splitOnChar '/' p).any (fun s => s = "..".data) || p.any (fun c => c = '~') then
    .error ⟨.INVALID_PATH, "Unsafe path".data⟩
  else if p.head? = some '/' ||
      (match p with | a :: b :: _ => a.isAlpha && b = ':' | _ => false) then
    .error ⟨.INVALID_PATH, "Unsafe path".data⟩
  else if (splitOnChar '/' p).any (fun s => s.head? = some '.') then
    .error ⟨.INVALID_PATH, "Unsafe path".data⟩
  else .ok ()

/-! ### The Pipeline Orchestrator (`TranslateTool`, source `translate.ts`) -/

/-- The translation mode of a request. -/
inductive Mode where
  | replace
  | append
  | parallel
deriving DecidableEq, Repr

/-- `TranslationRequest` of `types/index.ts`. -/
structure TranslationRequest where
  url : Str
  targetLanguage : Option Str
  mode : Option Mode

/-- `TranslationResult` of `types/index.ts`. -/
structure TranslationResult where
  originalContent : Str
  translatedContent : Str
  backupPath : Str
  timestamp : Str
deriving DecidableEq, Repr

/-- The ambient capabilities of one pipeline run: the generation capability,
the current unix-millisecond time, an ISO renderer for timestamps, the ISO
time the translation service stamps, and the retention cutoff that
`cleanupOldBackups` computes from the current date and the retention days. -/
structure Env where
  gen : Str → Except Str (List RespSeg)
  now : Nat
  isoOf : Nat → Str
  nowIso : Str
  cutoff : Nat

/-- The static configuration: vault root directory and configured vault name. -/
structure Config where
  root : Str
  vault : Str

/-- The default target language (`日本語`). -/
def defaultLang : Str := "日本語".data

/-- `request.targetLanguage || '日本語'`: JavaScript `||` also replaces the
empty string, which is falsy. -/
def effectiveLang (o : Option Str) : Str :=
  match o with
  | some t => if t = [] then defaultLang else t
  | none => defaultLang

/-- `request.mode || 'replace'`. -/
def effectiveMode (o : Option Mode) : Mode :=
  match o with
  | some m => m
  | none => .replace

/-- The vault-relative backup path `createBackup` derives for source path `p`
at time `now`: the sibling `<base>.backup-<unixMillis><ext>`. -/
def backupRel (p : Str) (now : Nat) : Str :=
  pathJoin (dirname p)
    (basenameExt p (extname p) ++ ".backup-".data ++ natStr now ++ extname p)

/-- The separator inserted by `append` mode.  In the source the string
literal has doubled backslashes, so these are literal `\n` character pairs,
not newlines. -/
def appendSep : Str := "\\n\\n---\\n\\n# 翻訳版\\n\\n".data

/-- `filePath.replace(/\\.md$/, '.ja.md')` from `updateFileByMode`: because
the backslash is doubled, the regex matches a literal backslash, one
character (any but a line terminator), then `md` at the end of the string —
it does NOT match an ordinary `.md` suffix, so for every ordinary Markdown
path the result is the unchanged input. -/
def replaceBsMd (s : Str) : Str :=
  match s.reverse with
  | 'd' :: 'm' :: c :: b :: _ =>
    if b = bslash && !(c = nl) && !(c = Char.ofNat 13) then
      s.take (s.length - 4) ++ ".ja.md".data
    else s
  | _ => s

/-- `updateFileByMode` from `translate.ts`. -/
def updateFileByMode (root : Str) (st : FSState) (filePath orig trans : Str)
    (mode : Mode) (now : Nat) : Except Err FSState :=
  match mode with
  | .replace => writeFile root st filePath trans now
  | .append => writeFile root st filePath (orig ++ appendSep ++ trans) now
  | .parallel => writeFile root st (replaceBsMd filePath) trans now

/-- `parsedUrl.path.split('/').slice(0, -1).join('/')`: the containing
directory passed to `cleanupOldBackups`. -/
def relDir (p : Str) : Str := joinSegs (splitOnChar '/' p).dropLast

/-- `execute` from `translate.ts`: parse the address, validate vault and
path, confirm existence, read the source, create the backup, translate,
apply the mode, prune old backups; every thrown error is returned as-is
together with the filesystem state at the moment of the throw. -/
def execute (env : Env) (cfg : Config) (req : TranslationRequest)
    (st : FSState) : FSState × Except Err TranslationResult :=
  match parseObsidianUrl req.url with
  | .error e => (st, .error e)
  | .ok pu =>
    match validateVault pu.vault cfg.vault with
    | .error e => (st, .error e)
    | .ok _ =>
      match validatePath pu.path with
      | .error e => (st, .error e)
      | .ok _ =>
        if existsFile cfg.root st pu.path then
          match readFile cfg.root st pu.path with
          | .error e => (st, .error e)
          | .ok originalContent =>
            match createBackup cfg.root st pu.path env.now env.isoOf with
            | .error e => (st, .error e)
            | .ok (backupInfo, st₁) =>
              match translateContent env.gen env.nowIso originalContent
                  (effectiveLang req.targetLanguage) with
              | .error e => (st₁, .error e)
              | .ok translatedContent =>
                match updateFileByMode cfg.root st₁ pu.path originalContent
                    translatedContent (effectiveMode req.mode) env.now with
                | .error e => (st₁, .error e)
                | .ok st₂ =>
                  (cleanupOldBackups cfg.root st₂ (relDir pu.path) env.cutoff,
                   .ok ⟨originalContent, translatedContent,
                        backupInfo.backupPath, backupInfo.timestamp⟩)
        else (st, .error ⟨.FILE_NOT_FOUND, "File not found: ".data ++ pu.path⟩)

/-- The accumulator loop of `executeBatch`: one `execute` per address with
mode fixed to `replace`; a successful result is pushed, a thrown error is
logged and skipped; the filesystem state is threaded through either way. -/
def executeBatchGo (env : Env) (cfg : Config) (tl : Str) :
    List Str → FSState → List TranslationResult →
    List TranslationResult × FSState
  | [], st, acc => (acc.reverse, st)
  | url :: rest, st, acc =>
    let r := execute env cfg ⟨url, some tl, some Mode.replace⟩ st
    match r.2 with
    | .ok res => executeBatchGo env cfg tl rest r.1 (res :: acc)
    | .error _ => executeBatchGo env cfg tl rest r.1 acc

/-- `executeBatch` from `translate.ts`. -/
def executeBatch (env : Env) (cfg : Config) (urls : List Str) (tl : Str)
    (st : FSState) : List TranslationResult × FSState :=
  executeBatchGo env cfg tl urls st []

/-! ### Facts about the store -/

theorem fsGet_nil (q : Str) : fsGet [] q = none := rfl

theorem fsGet_cons_eq {p q : Str} (f : FSFile) (t : List (Str × FSFile))
    (h : p = q) : fsGet ((p, f) :: t) q = some f := by
  show (if p = q then some f else fsGet t q) = some f
  rw [if_pos h]

theorem fsGet_cons_ne {p q : Str} (f : FSFile) (t : List (Str × FSFile))
    (h : p ≠ q) : fsGet ((p, f) :: t) q = fsGet t q := by
  show (if p = q then some f else fsGet t q) = fsGet t q
  rw [if_neg h]

theorem fsGet_fsPut_same (files : List (Str × FSFile)) (k : Str) (f : FSFile) :
    fsGet (fsPut files k f) k = some f :=
  fsGet_cons_eq f _ rfl

theorem fsGet_filter_ne {k q : Str} (h : q ≠ k) :
    ∀ files : List (Str × FSFile),
    fsGet (files.filter (fun p => p.1 ≠ k)) q = fsGet files q := by
  intro files
  induction files with
  | nil => rfl
  | cons e t ih =>
    obtain ⟨p, f⟩ := e
    by_cases hk : p = k
    · have hd : (decide (p ≠ k)) = false := by simp [hk]
      rw [List.filter_cons, hd]
      simp only [Bool.false_eq_true, if_false]
      rw [ih, fsGet_cons_ne f t (by rw [hk]; exact fun e => h e.symm)]
    · have hd : (decide (p ≠ k)) = true := by simp [hk]
      rw [List.filter_cons, hd]
      simp only [if_true]
      by_cases hq : p = q
      · rw [fsGet_cons_eq f _ hq, fsGet_cons_eq f t hq]
      · rw [fsGet_cons_ne f _ hq, fsGet_cons_ne f t hq, ih]

theorem fsGet_fsPut_other {k q : Str} (files : List (Str × FSFile)) (f : FSFile)
    (h : q ≠ k) : fsGet (fsPut files k f) q = fsGet files q := by
  unfold fsPut
  rw [fsGet_cons_ne f _ (fun e => h e.symm)]
  exact fsGet_filter_ne h files

theorem fsGet_filter_of_kept {k : Str} {f : FSFile} {pred : Str × FSFile → Bool} :
    ∀ files : List (Str × FSFile),
    fsGet files k = some f → pred (k, f) = true →
    fsGet (files.filter pred) k = some f := by
  intro files
  induction files with
  | nil => intro h; cases h
  | cons e t ih =>
    obtain ⟨p, g⟩ := e
    intro h hpred
    by_cases hk : p = k
    · rw [fsGet_cons_eq g t hk] at h
      obtain rfl : g = f := Option.some.inj h
      subst hk
      rw [List.filter_cons, hpred]
      simp only [if_true]
      exact fsGet_cons_eq _ _ rfl
    · rw [fsGet_cons_ne g t hk] at h
      rw [List.filter_cons]
      by_cases hp : pred (p, g)
      · rw [hp]
        simp only [if_true]
        rw [fsGet_cons_ne g _ hk]
        exact ih h hpred
      · rw [Bool.not_eq_true] at hp
        rw [hp]
        simp only [Bool.false_eq_true, if_false]
        exact ih h hpred

/-- Claim C7: a successful `createBackup(path)` writes the sibling
`<base>.backup-<unixMillis><ext>` (joined to the root like every other
access) with content identical to the source at call time, leaves the
content at the source path unchanged, and returns the record carrying the
original path, the backup path, the ISO timestamp and the backup's byte
size; when the source read fails, or the backup write is denied, it fails
with `BACKUP_FAILED` and no write is performed. -/
theorem createBackup_spec (root : Str) (st : FSState) (p : Str) (now : Nat)
    (isoOf : Nat → Str) :
    (∀ f, fsGet st.files (getAbsolutePath root p) = some f →
      st.writeOk (getAbsolutePath root (backupRel p now)) = true →
      createBackup root st p now isoOf =
        .ok (⟨p, backupRel p now, isoOf now, utf8Len f.content⟩,
             ⟨fsPut st.files (getAbsolutePath root (backupRel p now))
                ⟨f.content, now⟩, st.writeOk⟩)
      ∧ (fsGet (fsPut st.files (getAbsolutePath root (backupRel p now))
            ⟨f.content, now⟩) (getAbsolutePath root (backupRel p now))).map
            FSFile.content = some f.content
      ∧ (fsGet (fsPut st.files (getAbsolutePath root (backupRel p now))
            ⟨f.content, now⟩) (getAbsolutePath root p)).map FSFile.content
          = some f.content)
  ∧ (fsGet st.files (getAbsolutePath root p) = none →
      createBackup root st p now isoOf =
        .error ⟨.BACKUP_FAILED, "Cannot create backup for ".data ++ p⟩)
  ∧ (∀ f, fsGet st.files (getAbsolutePath root p) = some f →
      st.writeOk (getAbsolutePath root (backupRel p now)) = false →
      createBackup root st p now isoOf =
        .error ⟨.BACKUP_FAILED, "Cannot create backup for ".data ++ p⟩) := by
  refine ⟨?_, ?_, ?_⟩
  · intro f hf hw
    refine ⟨?_, ?_, ?_⟩
    · unfold createBackup
      rw [hf]
      simp only [backupRel] at hw ⊢
      rw [hw]
      rw [if_pos rfl]
    · rw [fsGet_fsPut_same]
      rfl
    · by_cases he : getAbsolutePath root p = getAbsolutePath root (backupRel p now)
      · rw [he, fsGet_fsPut_same]
        rfl
      · rw [fsGet_fsPut_other _ _ he, hf]
        rfl
  · intro hn
    unfold createBackup
    rw [hn]
  · intro f hf hw
    unfold createBackup
    rw [hf]
    simp only [backupRel] at hw ⊢
    rw [hw]
    rw [if_neg (by simp)]

/-- The concrete store of the Claim C7 witness. -/
def w7St : FSState :=
  ⟨[("/v/notes/a.md".data, ⟨"Hello".data, 5⟩)], fun _ => true⟩

/-- Witness for the Claim C7 theorem at a concrete store and path. -/
theorem createBackup_spec_witness :
    createBackup "/v".data w7St "notes/a.md".data 111 (fun _ => "ISO".data) =
      .ok (⟨"notes/a.md".data, backupRel "notes/a.md".data 111, "ISO".data,
            utf8Len "Hello".data⟩,
           ⟨fsPut w7St.files
              (getAbsolutePath "/v".data (backupRel "notes/a.md".data 111))
              ⟨"Hello".data, 111⟩, w7St.writeOk⟩)
    ∧ (fsGet (fsPut w7St.files
          (getAbsolutePath "/v".data (backupRel "notes/a.md".data 111))
          ⟨"Hello".data, 111⟩)
        (getAbsolutePath "/v".data (backupRel "notes/a.md".data 111))).map
        FSFile.content = some "Hello".data
    ∧ (fsGet (fsPut w7St.files
          (getAbsolutePath "/v".data (backupRel "notes/a.md".data 111))
          ⟨"Hello".data, 111⟩)
        (getAbsolutePath "/v".data "notes/a.md".data)).map FSFile.content
      = some "Hello".data :=
  (createBackup_spec "/v".data w7St "notes/a.md".data 111 (fun _ => "ISO".data)).1
    ⟨"Hello".data, 5⟩ (by decide) (by decide)

/-- Claim C9 (amended): every Sandboxed Store operation touches the
filesystem only at the caller path joined to the configured root (plus, for
`createBackup`, the derived backup sibling, joined to the root the same
way): the read operations depend only on the binding at the joined path, and
the writing operations change no binding other than the joined paths. -/
theorem store_accesses_joined_path (root p q content : Str) (now : Nat) :
    (∀ st st' : FSState,
       fsGet st.files (pathJoin root p) = fsGet st'.files (pathJoin root p) →
       st.writeOk = st'.writeOk →
       existsFile root st p = existsFile root st' p ∧
       readFile root st p = readFile root st' p)
  ∧ (∀ st st₂, q ≠ pathJoin root p →
       writeFile root st p content now = .ok st₂ →
       fsGet st₂.files q = fsGet st.files q)
  ∧ (∀ st (isoOf : Nat → Str) r st₂, q ≠ pathJoin root (backupRel p now) →
       createBackup root st p now isoOf = .ok (r, st₂) →
       fsGet st₂.files q = fsGet st.files q) := by
  refine ⟨?_, ?_, ?_⟩
  · intro st st' hsame hw
    constructor
    · unfold existsFile getAbsolutePath
      rw [hsame]
    · unfold readFile getAbsolutePath
      rw [hsame]
  · intro st st₂ hq hw
    unfold writeFile at hw
    simp only [getAbsolutePath] at hw
    split at hw
    · obtain rfl := Except.ok.inj hw
      exact fsGet_fsPut_other _ _ hq
    · cases hw
  · intro st isoOf r st₂ hq hcb
    unfold createBackup at hcb
    rcases hf : fsGet st.files (getAbsolutePath root p) with - | f
    · rw [hf] at hcb; cases hcb
    · simp only [getAbsolutePath] at hf hcb
      simp only [hf] at hcb
      split at hcb
      · obtain ⟨-, h2⟩ := Prod.mk.injEq .. ▸ Except.ok.inj hcb
        rw [← h2]
        refine fsGet_fsPut_other _ _ ?_
        exact hq
      · cases hcb

/-- Witness for the amended Claim C9 theorem: a write at `notes/a.md` under
root `/v` leaves the unrelated key `/v/other.md` untouched. -/
theorem store_accesses_joined_path_witness :
    fsGet (⟨fsPut w7St.files ("/v/notes/a.md".data) ⟨"N".data, 7⟩,
        w7St.writeOk⟩ : FSState).files "/v/other.md".data
      = fsGet w7St.files "/v/other.md".data :=
  (store_accesses_joined_path "/v".data "notes/a.md".data "/v/other.md".data
      "N".data 7).2.1 w7St _ (by decide) rfl

/-- Claim C9 counterexample: joining to the root does not confine access to
the root — `path.join` resolves parent segments, so the caller path
`../passwords.txt` makes the store access `/passwords.txt`, outside the
configured root `/vault`. -/
theorem join_escapes_root_cex :
    pathJoin "/vault".data "../passwords.txt".data = "/passwords.txt".data
    ∧ ("/vault/".data).isPrefixOf
        (pathJoin "/vault".data "../passwords.txt".data) = false := by
  constructor
  · decide
  · decide

/-! ### Stage lemmas for the pipeline -/

theorem existsFile_isSome {root : Str} {st : FSState} {p : Str} {f : FSFile}
    (h : fsGet st.files (getAbsolutePath root p) = some f) :
    existsFile root st p = true := by
  unfold existsFile
  rw [h]
  rfl

theorem readFile_ok {root : Str} {st : FSState} {p : Str} {f : FSFile}
    (h : fsGet st.files (getAbsolutePath root p) = some f) :
    readFile root st p = .ok f.content := by
  unfold readFile
  rw [h]

theorem createBackup_ok {root : Str} {st : FSState} {p : Str} {now : Nat}
    {isoOf : Nat → Str} {f : FSFile}
    (hf : fsGet st.files (getAbsolutePath root p) = some f)
    (hw : st.writeOk (getAbsolutePath root (backupRel p now)) = true) :
    createBackup root st p now isoOf =
      .ok (⟨p, backupRel p now, isoOf now, utf8Len f.content⟩,
           ⟨fsPut st.files (getAbsolutePath root (backupRel p now))
              ⟨f.content, now⟩, st.writeOk⟩) := by
  unfold createBackup
  rw [hf]
  simp only [backupRel] at hw ⊢
  rw [hw]
  rw [if_pos rfl]

theorem translateContent_err {gen : Str → Except Str (List RespSeg)}
    {nowIso content tl cause : Str}
    (hbody : jsTrim (matterSplit content).2 ≠ [])
    (hgen : gen (createTranslationPrompt (matterSplit content).2 tl)
      = .error cause) :
    translateContent gen nowIso content tl =
      .error ⟨.TRANSLATION_FAILED, "Translation failed: ".data ++ cause⟩ := by
  unfold translateContent
  rw [if_neg hbody]
  simp only [hgen]

theorem writeFile_ok_inv {root : Str} {st : FSState} {p content : Str}
    {now : Nat} {st₂ : FSState}
    (h : writeFile root st p content now = .ok st₂) :
    st₂ = ⟨fsPut st.files (getAbsolutePath root p) ⟨content, now⟩,
           st.writeOk⟩ := by
  unfold writeFile at h
  simp only [getAbsolutePath] at h ⊢
  split at h
  · exact (Except.ok.inj h).symm
  · cases h

/-- Claim C6: when the external translation call errors, the pipeline fails
with the `TRANSLATION_FAILED` error wrapping the underlying cause (the
translation service's exact rethrown error, not a swallowed one), the backup
file created in the Backing-Up stage is present in the final state with the
pre-run content, and the source path still carries its pre-run content,
because no write to the store has occurred by that stage. -/
theorem translation_failure_preserves_source
    (env : Env) (cfg : Config) (req : TranslationRequest) (st : FSState)
    (pu : ObsidianUrl) (f : FSFile) (cause : Str)
    (hp : parseObsidianUrl req.url = .ok pu)
    (hv : validateVault pu.vault cfg.vault = .ok ())
    (hpath : validatePath pu.path = .ok ())
    (hread : fsGet st.files (getAbsolutePath cfg.root pu.path) = some f)
    (hw : st.writeOk (getAbsolutePath cfg.root (backupRel pu.path env.now)) = true)
    (hbody : jsTrim (matterSplit f.content).2 ≠ [])
    (hgen : env.gen (createTranslationPrompt (matterSplit f.content).2
        (effectiveLang req.targetLanguage)) = .error cause) :
    execute env cfg req st =
      (⟨fsPut st.files (getAbsolutePath cfg.root (backupRel pu.path env.now))
          ⟨f.content, env.now⟩, st.writeOk⟩,
       .error ⟨.TRANSLATION_FAILED, "Translation failed: ".data ++ cause⟩)
    ∧ (fsGet (fsPut st.files
          (getAbsolutePath cfg.root (backupRel pu.path env.now))
          ⟨f.content, env.now⟩)
        (getAbsolutePath cfg.root (backupRel pu.path env.now))).map
        FSFile.content = some f.content
    ∧ (fsGet (fsPut st.files
          (getAbsolutePath cfg.root (backupRel pu.path env.now))
          ⟨f.content, env.now⟩)
        (getAbsolutePath cfg.root pu.path)).map FSFile.content
      = some f.content := by
  refine ⟨?_, ?_, ?_⟩
  · unfold execute
    simp only [hp, hv, hpath, existsFile_isSome hread, if_true,
      readFile_ok hread, createBackup_ok hread hw,
      translateContent_err hbody hgen]
  · rw [fsGet_fsPut_same]
    rfl
  · by_cases he : getAbsolutePath cfg.root pu.path
        = getAbsolutePath cfg.root (backupRel pu.path env.now)
    · rw [he, fsGet_fsPut_same]
      rfl
    · rw [fsGet_fsPut_other _ _ he, hread]
      rfl

/-- The generation capability of the concrete failing-translation run. -/
def c6Gen : Str → Except Str (List RespSeg) := fun _ => .error "quota".data

/-- The environment of the concrete failing-translation run. -/
def c6Env : Env :=
  { gen := c6Gen, now := 111, isoOf := fun _ => "ISO".data,
    nowIso := "N".data, cutoff := 0 }

/-- The configuration shared by the concrete pipeline runs. -/
def cfgV : Config := { root := "/v".data, vault := "Main".data }

/-- Witness for the Claim C6 theorem at a concrete run. -/
theorem translation_failure_preserves_source_witness :
    execute c6Env cfgV
      ⟨"obsidian://open?vault=Main&file=notes/a.md".data,
        some "English".data, some Mode.replace⟩ w7St =
      (⟨fsPut w7St.files
          (getAbsolutePath cfgV.root (backupRel "notes/a.md".data 111))
          ⟨"Hello".data, 111⟩, w7St.writeOk⟩,
       .error ⟨.TRANSLATION_FAILED, "Translation failed: quota".data⟩)
    ∧ (fsGet (fsPut w7St.files
          (getAbsolutePath cfgV.root (backupRel "notes/a.md".data 111))
          ⟨"Hello".data, 111⟩)
        (getAbsolutePath cfgV.root (backupRel "notes/a.md".data 111))).map
        FSFile.content = some "Hello".data
    ∧ (fsGet (fsPut w7St.files
          (getAbsolutePath cfgV.root (backupRel "notes/a.md".data 111))
          ⟨"Hello".data, 111⟩)
        (getAbsolutePath cfgV.root "notes/a.md".data)).map FSFile.content
      = some "Hello".data :=
  translation_failure_preserves_source c6Env cfgV
    ⟨"obsidian://open?vault=Main&file=notes/a.md".data,
      some "English".data, some Mode.replace⟩ w7St
    ⟨"Main".data, "notes/a.md".data, "notes/a.md".data⟩
    ⟨"Hello".data, 5⟩ "quota".data
    (by decide) (by decide) (by decide) (by decide) rfl (by decide) rfl

/-! ### The batch loop -/

theorem executeBatchGo_acc (env : Env) (cfg : Config) (tl : Str) :
    ∀ (urls : List Str) (st : FSState) (acc : List TranslationResult),
    executeBatchGo env cfg tl urls st acc =
      (acc.reverse ++ (executeBatchGo env cfg tl urls st []).1,
       (executeBatchGo env cfg tl urls st []).2) := by
  intro urls
  induction urls with
  | nil =>
    intro st acc
    simp [executeBatchGo]
  | cons u rest ih =>
    intro st acc
    rcases hx : (execute env cfg ⟨u, some tl, some Mode.replace⟩ st).2
      with e | res
    · simp only [executeBatchGo, hx]
      exact ih _ acc
    · simp only [executeBatchGo, hx]
      rw [ih _ (res :: acc), ih _ [res]]
      simp

theorem executeBatch_cons_err {env : Env} {cfg : Config} {tl u : Str}
    {rest : List Str} {st st' : FSState} {e : Err}
    (hx : execute env cfg ⟨u, some tl, some Mode.replace⟩ st = (st', .error e)) :
    executeBatch env cfg (u :: rest) tl st = executeBatch env cfg rest tl st' := by
  unfold executeBatch
  simp only [executeBatchGo, hx]

theorem executeBatch_cons_ok {env : Env} {cfg : Config} {tl u : Str}
    {rest : List Str} {st st' : FSState} {r : TranslationResult}
    (hx : execute env cfg ⟨u, some tl, some Mode.replace⟩ st = (st', .ok r)) :
    (executeBatch env cfg (u :: rest) tl st).1
      = r :: (executeBatch env cfg rest tl st').1
    ∧ (executeBatch env cfg (u :: rest) tl st).2
      = (executeBatch env cfg rest tl st').2 := by
  unfold executeBatch
  simp only [executeBatchGo, hx]
  rw [executeBatchGo_acc env cfg tl rest st' [r]]
  simp

theorem executeBatch_length_le (env : Env) (cfg : Config) (tl : Str) :
    ∀ (urls : List Str) (st : FSState),
    (executeBatch env cfg urls tl st).1.length ≤ urls.length := by
  intro urls
  induction urls with
  | nil =>
    intro st
    simp [executeBatch, executeBatchGo]
  | cons u rest ih =>
    intro st
    rcases hx : execute env cfg ⟨u, some tl, some Mode.replace⟩ st with ⟨st', res⟩
    rcases res with e | r
    · rw [executeBatch_cons_err hx]
      exact le_trans (ih st') (by simp)
    · rw [(executeBatch_cons_ok hx).1]
      simpa using Nat.succ_le_succ (ih st')

/-- The generation capability of the concrete batch runs. -/
def c3Gen : Str → Except Str (List RespSeg) := fun _ => .ok [RespSeg.text "T".data]

/-- The environment of the concrete batch runs. -/
def c3Env : Env :=
  { gen := c3Gen, now := 111, isoOf := fun _ => "ISO".data,
    nowIso := "N".data, cutoff := 0 }

/-- The store of the concrete batch runs: `a.md` and `c.md` exist, `b.md`
does not. -/
def c3St : FSState :=
  ⟨[("/v/a.md".data, ⟨"A".data, 5⟩), ("/v/c.md".data, ⟨"C".data, 5⟩)],
   fun _ => true⟩

/-- Address of the existing note `a.md`. -/
def c3U1 : Str := "obsidian://open?vault=Main&file=a.md".data

/-- Address of the missing note `b.md`. -/
def c3U2 : Str := "obsidian://open?vault=Main&file=b.md".data

/-- Address of the existing note `c.md`. -/
def c3U3 : Str := "obsidian://open?vault=Main&file=c.md".data

/-- Claim C3 counterexample: for the three-address batch whose second target
does not exist, the outcome array has length 2, not 3 — the failed item is
dropped (only logged), not reported as an error in its position; the two
successes keep input order. -/
theorem batch_drops_failures_cex :
    (executeBatch c3Env cfgV [c3U1, c3U2, c3U3] "English".data c3St).1.length = 2
    ∧ ¬((executeBatch c3Env cfgV [c3U1, c3U2, c3U3] "English".data
          c3St).1.length = 3)
    ∧ (executeBatch c3Env cfgV [c3U1, c3U2, c3U3] "English".data c3St).1.map
        (fun r => r.originalContent) = ["A".data, "C".data] := by
  refine ⟨by decide, by decide, by decide⟩

/-- Claim C3 (amended): `executeBatch` processes the remaining addresses
regardless of one item's failure, but a failed item is skipped entirely —
its error is only logged — so the result list contains exactly the
successful outcomes, in input order, and can be shorter than the input;
failed entries are neither substituted nor reported in position. -/
theorem executeBatch_skips_failures :
    (∀ (env : Env) (cfg : Config) (tl u : Str) (rest : List Str)
       (st st' : FSState) (e : Err),
       execute env cfg ⟨u, some tl, some Mode.replace⟩ st = (st', .error e) →
       executeBatch env cfg (u :: rest) tl st
         = executeBatch env cfg rest tl st')
  ∧ (∀ (env : Env) (cfg : Config) (tl u : Str) (rest : List Str)
       (st st' : FSState) (r : TranslationResult),
       execute env cfg ⟨u, some tl, some Mode.replace⟩ st = (st', .ok r) →
       (executeBatch env cfg (u :: rest) tl st).1
         = r :: (executeBatch env cfg rest tl st').1
       ∧ (executeBatch env cfg (u :: rest) tl st).2
         = (executeBatch env cfg rest tl st').2)
  ∧ (∀ (env : Env) (cfg : Config) (tl : Str) (urls : List Str) (st : FSState),
       (executeBatch env cfg urls tl st).1.length ≤ urls.length) :=
  ⟨fun _ _ _ _ _ _ _ _ hx => executeBatch_cons_err hx,
   fun _ _ _ _ _ _ _ _ hx => executeBatch_cons_ok hx,
   fun env cfg tl urls st => executeBatch_length_le env cfg tl urls st⟩

/-- Witness for the amended Claim C3 theorem: dropping the failing head
address leaves the batch of the remaining addresses. -/
theorem executeBatch_skips_failures_witness :
    executeBatch c3Env cfgV [c3U2, c3U3] "English".data c3St
      = executeBatch c3Env cfgV [c3U3] "English".data c3St :=
  executeBatch_skips_failures.1 c3Env cfgV "English".data c3U2 [c3U3] c3St c3St
    ⟨.FILE_NOT_FOUND, "File not found: b.md".data⟩ rfl

/-- A successful `execute` with mode `replace` leaves the translated content
at the source path (joined to the root): inversion of the pipeline plus the
fact that best-effort pruning never deletes a file modified at the current
time when the retention cutoff is not in the future. -/
theorem execute_replace_ok {env : Env} {cfg : Config} {req : TranslationRequest}
    {st stF : FSState} {r : TranslationResult}
    (hmode : req.mode = some Mode.replace)
    (hclock : env.cutoff ≤ env.now)
    (hsucc : execute env cfg req st = (stF, .ok r)) :
    ∃ pu, parseObsidianUrl req.url = .ok pu ∧
      (fsGet stF.files (getAbsolutePath cfg.root pu.path)).map FSFile.content
        = some r.translatedContent := by
  unfold execute at hsucc
  rcases hpar : parseObsidianUrl req.url with e | pu
  · simp only [hpar] at hsucc
    simp at hsucc
  · simp only [hpar] at hsucc
    rcases hv : validateVault pu.vault cfg.vault with e | u
    · simp only [hv] at hsucc
      simp at hsucc
    · simp only [hv] at hsucc
      rcases hvp : validatePath pu.path with e | u'
      · simp only [hvp] at hsucc
        simp at hsucc
      · simp only [hvp] at hsucc
        by_cases hex : existsFile cfg.root st pu.path = true
        · simp only [hex, if_true] at hsucc
          rcases hrf : readFile cfg.root st pu.path with e | orig
          · simp only [hrf] at hsucc
            simp at hsucc
          · simp only [hrf] at hsucc
            rcases hcb : createBackup cfg.root st pu.path env.now env.isoOf
              with e | pr
            · simp only [hcb] at hsucc
              simp at hsucc
            · obtain ⟨bi, st₁⟩ := pr
              simp only [hcb] at hsucc
              rcases htr : translateContent env.gen env.nowIso orig
                  (effectiveLang req.targetLanguage) with e | tc
              · simp only [htr] at hsucc
                simp at hsucc
              · simp only [htr] at hsucc
                rcases hupd : updateFileByMode cfg.root st₁ pu.path orig tc
                    (effectiveMode req.mode) env.now with e | st₂
                · simp only [hupd] at hsucc
                  simp at hsucc
                · simp only [hupd] at hsucc
                  have h1 : cleanupOldBackups cfg.root st₂ (relDir pu.path)
                      env.cutoff = stF := congrArg Prod.fst hsucc
                  have h2 := congrArg Prod.snd hsucc
                  simp only [Except.ok.injEq] at h2
                  rw [hmode] at hupd
                  simp only [effectiveMode, updateFileByMode] at hupd
                  have hst₂ := writeFile_ok_inv hupd
                  refine ⟨pu, rfl, ?_⟩
                  rw [← h1]
                  unfold cleanupOldBackups
                  have hget : fsGet st₂.files (getAbsolutePath cfg.root pu.path)
                      = some ⟨tc, env.now⟩ := by
                    rw [hst₂]
                    exact fsGet_fsPut_same _ _ _
                  have hkept :
                      (fun e : Str × FSFile =>
                        !(inDirDirect
                            (getAbsolutePath cfg.root (relDir pu.path)) e.1 &&
                          hasSub (e.1.drop
                            ((getAbsolutePath cfg.root (relDir pu.path)).length + 1))
                            ".backup-".data &&
                          decide (e.2.mtime < env.cutoff)))
                        (getAbsolutePath cfg.root pu.path, ⟨tc, env.now⟩)
                        = true := by
                    have hd : decide (env.now < env.cutoff) = false :=
                      decide_eq_false (Nat.not_lt.mpr hclock)
                    simp [hd]
                  rw [fsGet_filter_of_kept st₂.files hget hkept, ← h2]
                  rfl
        · simp only [hex, if_false] at hsucc
          simp at hsucc

/-- Claim C10: every outcome of `executeBatch` arises from an `execute`
invocation whose request carries mode `replace` (the batch loop hardcodes
it, so `append` and `parallel` are unreachable through the batch), the
single given target language, and one of the input addresses; consequently
every successful batch item has overwritten its own source path with the
translated document. -/
theorem executeBatch_mode_replace_overwrites :
    ∀ (env : Env) (cfg : Config) (tl : Str) (urls : List Str) (st : FSState)
      (r : TranslationResult),
      env.cutoff ≤ env.now →
      r ∈ (executeBatch env cfg urls tl st).1 →
      ∃ u st₁ st₂ pu, u ∈ urls ∧
        execute env cfg ⟨u, some tl, some Mode.replace⟩ st₁ = (st₂, .ok r) ∧
        parseObsidianUrl u = .ok pu ∧
        (fsGet st₂.files (getAbsolutePath cfg.root pu.path)).map FSFile.content
          = some r.translatedContent := by
  intro env cfg tl urls
  induction urls with
  | nil =>
    intro st r hc hr
    simp [executeBatch, executeBatchGo] at hr
  | cons u rest ih =>
    intro st r hc hr
    rcases hx : execute env cfg ⟨u, some tl, some Mode.replace⟩ st with ⟨st', res⟩
    rcases res with e | res
    · rw [executeBatch_cons_err hx] at hr
      obtain ⟨u', st₁, st₂, pu, hm, he, hp, hl⟩ := ih st' r hc hr
      exact ⟨u', st₁, st₂, pu, List.mem_cons_of_mem _ hm, he, hp, hl⟩
    · rw [(executeBatch_cons_ok hx).1] at hr
      rcases List.mem_cons.mp hr with hr | hr
      · subst hr
        obtain ⟨pu, hp, hl⟩ := execute_replace_ok rfl hc hx
        exact ⟨u, st, st', pu, List.mem_cons_self _ _, hx, hp, hl⟩
      · obtain ⟨u', st₁, st₂, pu, hm, he, hp, hl⟩ := ih st' r hc hr
        exact ⟨u', st₁, st₂, pu, List.mem_cons_of_mem _ hm, he, hp, hl⟩

/-- The translated document the concrete batch runs produce for body `"A"`. -/
def c3Trans : Str :=
  "---\ntranslated:\n  date: N\n  target_language: English\n  model: claude-3-haiku-20240307\n---\nT".data

/-- Witness for the Claim C10 theorem at a one-address batch. -/
theorem executeBatch_mode_replace_overwrites_witness :
    ∃ u st₁ st₂ pu, u ∈ [c3U1] ∧
      execute c3Env cfgV ⟨u, some "English".data, some Mode.replace⟩ st₁
        = (st₂, .ok ⟨"A".data, c3Trans, "a.backup-111.md".data, "ISO".data⟩) ∧
      parseObsidianUrl u = .ok pu ∧
      (fsGet st₂.files (getAbsolutePath cfgV.root pu.path)).map FSFile.content
        = some c3Trans :=
  executeBatch_mode_replace_overwrites c3Env cfgV "English".data [c3U1] c3St
    ⟨"A".data, c3Trans, "a.backup-111.md".data, "ISO".data⟩
    (by decide) (by decide)

/-! ### The parallel-mode slip -/

/-- The environment of the concrete parallel-mode run. -/
def c1Env : Env :=
  { gen := fun _ => .ok [RespSeg.text "Bonjour".data], now := 111,
    isoOf := fun _ => "ISO".data, nowIso := "NOWISO".data, cutoff := 0 }

/-- The parallel-mode request for `notes/a.md`. -/
def c1Req : TranslationRequest :=
  ⟨"obsidian://open?vault=Main&file=notes/a.md".data,
   some "English".data, some Mode.parallel⟩

/-- The translated document of the concrete parallel-mode run. -/
def c1Trans : Str :=
  "---\ntranslated:\n  date: NOWISO\n  target_language: English\n  model: claude-3-haiku-20240307\n---\nBonjour".data

/-- Claim C1: in mode `parallel` the claim expects a new sibling file
`notes/a.ja.md` with the translated content and the source left untouched.
Because the source's regex `/\\.md$/` contains a doubled backslash, it
matches a literal backslash before `md` — never an ordinary `.md` suffix —
so `parallelPath` equals the source path: the run writes the translated
document OVER `notes/a.md` and creates no `notes/a.ja.md`. -/
theorem parallel_mode_overwrites_source :
    replaceBsMd "notes/a.md".data = "notes/a.md".data
    ∧ (execute c1Env cfgV c1Req w7St).2 =
        .ok ⟨"Hello".data, c1Trans, "notes/a.backup-111.md".data, "ISO".data⟩
    ∧ fsGet (execute c1Env cfgV c1Req w7St).1.files "/v/notes/a.ja.md".data
        = none
    ∧ (fsGet (execute c1Env cfgV c1Req w7St).1.files "/v/notes/a.md".data).map
        FSFile.content = some c1Trans
    ∧ c1Trans ≠ "Hello".data := by
  refine ⟨by decide, by decide, by decide, by decide, by decide⟩

/-! ### The guard round trip

The remainder of the development proves the amended round-trip property of
the Structural Content Guard: `restore(protect(body)) = body` for every body
that does not contain the placeholder stems `INLINE_CODE` / `CODE_BLOCK` and
contains no dollar character. -/

/-- The letters of the inline placeholder between the underscores. -/
def stemI : Str := "INLINE_CODE".data

/-- The letters of the block placeholder between the underscores. -/
def stemB : Str := "CODE_BLOCK".data

/-- A well-formed placeholder: one the guard can generate. -/
def PhWf (p : Str) : Prop := (∃ k, p = phI k) ∨ (∃ k, p = phB k)

theorem splitOnFirst_self (p y : Str) : splitOnFirst (p ++ y) p = some ([], y) := by
  unfold splitOnFirst
  have hp : p.isPrefixOf (p ++ y) = true :=
    List.isPrefixOf_iff_prefix.mpr (List.prefix_append p y)
  rw [hp]
  simp only [if_true, List.drop_left]

theorem splitOnFirst_cons_of_not {p : Str} {c : Char} {t : Str}
    (h : p.isPrefixOf (c :: t) = false) :
    splitOnFirst (c :: t) p = (splitOnFirst t p).map (fun pr => (c :: pr.1, pr.2)) := by
  conv_lhs => rw [splitOnFirst]
  rw [h]
  simp only [Bool.false_eq_true, if_false]

theorem splitOnFirst_some {p : Str} : ∀ {s a b : Str},
    splitOnFirst s p = some (a, b) → s = a ++ p ++ b := by
  intro s
  induction s with
  | nil =>
    intro a b h
    unfold splitOnFirst at h
    by_cases hp : p.isPrefixOf [] = true
    · rw [hp] at h
      simp only [if_true] at h
      obtain ⟨h1, h2⟩ := Prod.mk.injEq .. ▸ Option.some.inj h
      obtain ⟨u, hu⟩ := List.isPrefixOf_iff_prefix.mp hp
      have : p = [] := (List.append_eq_nil.mp hu).1
      simp [← h1, ← h2, this]
    · rw [Bool.not_eq_true] at hp
      rw [hp] at h
      simp only [Bool.false_eq_true, if_false] at h
      cases h
  | cons c t ih =>
    intro a b h
    unfold splitOnFirst at h
    by_cases hp : p.isPrefixOf (c :: t) = true
    · rw [hp] at h
      simp only [if_true] at h
      obtain ⟨h1, h2⟩ := Prod.mk.injEq .. ▸ Option.some.inj h
      obtain ⟨u, hu⟩ := List.isPrefixOf_iff_prefix.mp hp
      rw [← h1, ← h2, ← hu]
      simp [List.drop_left]
    · rw [Bool.not_eq_true] at hp
      rw [hp] at h
      simp only [Bool.false_eq_true, if_false] at h
      rcases hs : splitOnFirst t p with - | pr
      · rw [hs] at h; cases h
      · rw [hs] at h
        obtain ⟨a', b'⟩ := pr
        simp only [Option.map_some', Option.some.injEq, Prod.mk.injEq] at h
        obtain ⟨h1, h2⟩ := h
        rw [← h1, ← h2]
        simp [ih hs]

theorem hasSub_of_decomp {p : Str} : ∀ {s a b : Str},
    s = a ++ p ++ b → hasSub s p = true := by
  intro s a
  induction a generalizing s with
  | nil =>
    intro b h
    unfold hasSub splitOnFirst
    have hp : p.isPrefixOf s = true := by
      refine List.isPrefixOf_iff_prefix.mpr ⟨b, ?_⟩
      rw [h]
      simp
    rw [hp]
    simp
  | cons c a' ih =>
    intro b h
    cases s with
    | nil => cases h
    | cons c' t =>
      rw [List.cons_append] at h
      injection h with he ht
      unfold hasSub
      conv_lhs => rw [splitOnFirst]
      by_cases hp : p.isPrefixOf (c' :: t) = true
      · rw [hp]; simp
      · rw [Bool.not_eq_true] at hp
        rw [hp]
        simp only [Bool.false_eq_true, if_false]
        have hih := ih (s := t) ht
        unfold hasSub at hih
        rcases hs : splitOnFirst t p with - | pr
        · rw [hs] at hih; cases hih
        · simp [hs]

theorem hasSub_mono {p x y : Str} (h : hasSub x p = true)
    (hxy : ∃ a b, y = a ++ x ++ b) : hasSub y p = true := by
  unfold hasSub at h
  rcases hs : splitOnFirst x p with - | pr
  · rw [hs] at h; cases h
  · obtain ⟨a, b⟩ := pr
    obtain ⟨u, v, huv⟩ := hxy
    have hx := splitOnFirst_some hs
    refine hasSub_of_decomp (a := u ++ a) (b := b ++ v) ?_
    rw [huv, hx]
    simp

theorem not_hasSub_of_infix {p x y : Str} (h : hasSub y p = false)
    (hxy : ∃ a b, y = a ++ x ++ b) : hasSub x p = false := by
  by_cases hx : hasSub x p = true
  · rw [hasSub_mono hx hxy] at h
    cases h
  · exact Bool.not_eq_true _ ▸ hx

theorem processDollar_id {o : Str} (h : dollar ∉ o) :
    ∀ m b a, processDollar o m b a = o := by
  induction o with
  | nil => intro m b a; rfl
  | cons c t ih =>
    intro m b a
    have hc : c ≠ dollar := fun e => h (by rw [e]; simp)
    unfold processDollar
    rw [if_neg hc]
    rw [ih (fun ht => h (by simp [ht]))]

theorem jsReplaceFirst_exact {x p o y : Str}
    (hsplit : splitOnFirst (x ++ p ++ y) p = some (x, y)) (ho : dollar ∉ o) :
    jsReplaceFirst (x ++ p ++ y) p o = x ++ o ++ y := by
  unfold jsReplaceFirst
  rw [hsplit]
  show x ++ processDollar o p x y ++ y = x ++ o ++ y
  rw [processDollar_id ho]

/-! #### Decimal counters -/

theorem natStrGo_fuel : ∀ {f₁ f₂ n : Nat}, n < f₁ → n < f₂ →
    natStrGo f₁ n = natStrGo f₂ n := by
  intro f₁
  induction f₁ using Nat.strong_induction_on with
  | _ f₁ ih =>
    intro f₂ n h₁ h₂
    match f₁, h₁ with
    | f₁ + 1, h₁ =>
      match f₂, h₂ with
      | f₂ + 1, h₂ =>
        by_cases hn : n < 10
        · simp [natStrGo, hn]
        · have hd : n / 10 < n := Nat.div_lt_self (by omega) (by omega)
          simp only [natStrGo, hn, if_false]
          have e : natStrGo f₁ (n / 10) = natStrGo f₂ (n / 10) :=
            ih f₁ (Nat.lt_succ_self _) (by omega) (by omega)
          rw [e]

theorem natStr_cons (n : Nat) (h : ¬ n < 10) :
    natStr n = natStr (n / 10) ++ [Char.ofNat (48 + n % 10)] := by
  unfold natStr
  have hd : n / 10 < n := Nat.div_lt_self (by omega) (by omega)
  conv_lhs => rw [natStrGo]
  rw [if_neg h, natStrGo_fuel (by omega) (Nat.lt_succ_self _)]

theorem natStr_small (n : Nat) (h : n < 10) :
    natStr n = [Char.ofNat (48 + n)] := by
  unfold natStr
  rw [natStrGo]
  rw [if_pos h]

/-- Read a decimal string back; inverse of `natStr` on its image. -/
def natVal (l : Str) : Nat := l.foldl (fun a c => a * 10 + (c.toNat - 48)) 0

theorem natVal_append (a : Str) (c : Char) :
    natVal (a ++ [c]) = natVal a * 10 + (c.toNat - 48) := by
  unfold natVal
  rw [List.foldl_append]
  rfl

theorem digit_toNat : ∀ m, m < 10 → (Char.ofNat (48 + m)).toNat = 48 + m := by
  decide

theorem natVal_natStr : ∀ n, natVal (natStr n) = n := by
  intro n
  induction n using Nat.strong_induction_on with
  | _ n ih =>
    by_cases hn : n < 10
    · rw [natStr_small n hn]
      show 0 * 10 + ((Char.ofNat (48 + n)).toNat - 48) = n
      rw [digit_toNat n hn]
      omega
    · rw [natStr_cons n hn, natVal_append,
        ih (n / 10) (Nat.div_lt_self (by omega) (by omega)),
        digit_toNat (n % 10) (Nat.mod_lt _ (by omega))]
      omega

theorem natStr_inj {m n : Nat} (h : natStr m = natStr n) : m = n := by
  have := natVal_natStr m
  rw [h, natVal_natStr] at this
  exact this.symm

theorem natStr_ne_nil (n : Nat) : natStr n ≠ [] := by
  by_cases hn : n < 10
  · rw [natStr_small n hn]; simp
  · rw [natStr_cons n hn]; simp

theorem natStr_digits : ∀ n c, c ∈ natStr n → 48 ≤ c.toNat ∧ c.toNat ≤ 57 := by
  intro n
  induction n using Nat.strong_induction_on with
  | _ n ih =>
    intro c hc
    by_cases hn : n < 10
    · rw [natStr_small n hn] at hc
      simp only [List.mem_singleton] at hc
      subst hc
      rw [digit_toNat n hn]
      omega
    · rw [natStr_cons n hn] at hc
      rcases List.mem_append.mp hc with hc | hc
      · exact ih (n / 10) (Nat.div_lt_self (by omega) (by omega)) c hc
      · simp only [List.mem_singleton] at hc
        subst hc
        rw [digit_toNat (n % 10) (Nat.mod_lt _ (by omega))]
        omega

theorem natStr_no_underscore {n : Nat} {c : Char} (hc : c ∈ natStr n) :
    c ≠ '_' := by
  obtain ⟨h1, h2⟩ := natStr_digits n c hc
  intro he
  subst he
  exact absurd h2 (by decide)

/-! #### Shape of the placeholder tokens -/

/-- The common shape of both placeholder tokens: two underscores, a stem
of letters, one underscore, the decimal counter, two underscores. -/
def mkPh (stem : Str) (k : Nat) : Str :=
  '_' :: '_' :: (stem ++ '_' :: (natStr k ++ ['_', '_']))

theorem phI_mkPh (k : Nat) : phI k = mkPh stemI k := rfl

theorem phB_mkPh (k : Nat) : phB k = mkPh stemB k := rfl

/-- The properties of a stem that make placeholder occurrences
unambiguous: nonempty, does not start with an underscore, contains no
double underscore, and does not end with an underscore. -/
def stemOK (stem : Str) : Prop :=
  stem ≠ [] ∧ stem.head? ≠ some '_' ∧
    ∀ j, j < stem.length → (stem.drop j).take 2 ≠ ['_', '_'] ∧ stem.drop j ≠ ['_']

theorem stemI_ok : stemOK stemI := by
  unfold stemOK
  decide

theorem stemB_ok : stemOK stemB := by
  unfold stemOK
  decide

theorem stemOK_head {stem : Str} (h : stemOK stem) :
    ∃ c t, stem = c :: t ∧ c ≠ '_' := by
  obtain ⟨h0, h1, -⟩ := h
  cases stem with
  | nil => exact absurd rfl h0
  | cons c t =>
    refine ⟨c, t, rfl, ?_⟩
    intro e
    exact h1 (by subst e; rfl)

theorem mkPh_decomp (stem : Str) (k : Nat) :
    mkPh stem k = ['_', '_'] ++ (stem ++ '_' :: (natStr k ++ ['_', '_'])) := rfl

theorem mkPh_mid (stem : Str) (k : Nat) :
    mkPh stem k = ('_' :: '_' :: (stem ++ ['_'])) ++ (natStr k ++ ['_', '_']) := by
  unfold mkPh
  simp

theorem mkPh_snoc_uu (stem : Str) (k : Nat) :
    mkPh stem k = ('_' :: '_' :: (stem ++ '_' :: natStr k)) ++ ['_', '_'] := by
  unfold mkPh
  simp

theorem mkPh_snoc_u (stem : Str) (k : Nat) :
    mkPh stem k = ('_' :: '_' :: (stem ++ '_' :: (natStr k ++ ['_']))) ++ ['_'] := by
  unfold mkPh
  simp

/-! #### Small mismatch facts -/

theorem prefix_take_two {X R Z : Str} (hp : ('_' :: '_' :: Z) <+: (X ++ R)) :
    (X ++ R).take 2 = ['_', '_'] := by
  obtain ⟨u, hu⟩ := hp
  rw [← hu]
  rfl

/-- A double-underscore-led pattern cannot start on a window whose first
two characters are not both underscores. -/
theorem uu_not_prefix_left {X : Str} (h2 : X.take 2 ≠ ['_', '_'])
    (h1 : X ≠ ['_']) (h0 : X ≠ []) (Z R : Str) :
    ¬ ('_' :: '_' :: Z) <+: (X ++ R) := by
  intro hp
  have ht := prefix_take_two hp
  cases X with
  | nil => exact h0 rfl
  | cons a X' =>
    cases X' with
    | nil =>
      rw [List.singleton_append, List.take_succ_cons] at ht
      injection ht with ha _
      exact h1 (by rw [ha])
    | cons b X'' =>
      rw [List.cons_append, List.cons_append, List.take_succ_cons,
        List.take_succ_cons, List.take_zero] at ht
      injection ht with ha ht'
      injection ht' with hb _
      exact h2 (by rw [List.take_succ_cons, List.take_succ_cons, List.take_zero, ha, hb])

/-- A window whose first two characters are not both underscores is not a
prefix of a double-underscore-led string. -/
theorem not_prefix_uu {X : Str} (h2 : X.take 2 ≠ ['_', '_'])
    (h1 : X ≠ ['_']) (h0 : X ≠ []) (Z : Str) :
    ¬ X <+: ('_' :: '_' :: Z) := by
  intro hp
  obtain ⟨u, hu⟩ := hp
  cases X with
  | nil => exact h0 rfl
  | cons a X' =>
    cases X' with
    | nil =>
      injection hu with ha _
      exact h1 (by rw [ha])
    | cons b X'' =>
      rw [List.cons_append, List.cons_append] at hu
      injection hu with ha hu'
      injection hu' with hb _
      exact h2 (by rw [List.take_succ_cons, List.take_succ_cons, List.take_zero, ha, hb])

/-- Two distinct digit runs followed by double underscores can never align
as prefix of one another: the first difference is either digit-vs-digit or
digit-vs-underscore. -/
theorem digits_mismatch : ∀ {d d' : Str},
    (∀ c ∈ d, 48 ≤ c.toNat ∧ c.toNat ≤ 57) →
    (∀ c ∈ d', 48 ≤ c.toNat ∧ c.toNat ≤ 57) →
    d ≠ d' → ∀ u v, ¬ (d ++ '_' :: '_' :: u) <+: (d' ++ '_' :: '_' :: v) := by
  intro d
  induction d with
  | nil =>
    intro d' _ hd' hne u v hp
    cases d' with
    | nil => exact hne rfl
    | cons c t =>
      obtain ⟨w, hw⟩ := hp
      simp only [List.nil_append, List.cons_append] at hw
      injection hw with h1 _
      have hc := hd' c (by simp)
      rw [← h1] at hc
      have h95 : ('_' : Char).toNat = 95 := rfl
      rw [h95] at hc
      omega
  | cons c d ih =>
    intro d' hd hd' hne u v hp
    cases d' with
    | nil =>
      obtain ⟨w, hw⟩ := hp
      simp only [List.cons_append, List.nil_append] at hw
      injection hw with h1 _
      have hc := hd c (by simp)
      rw [h1] at hc
      have h95 : ('_' : Char).toNat = 95 := rfl
      rw [h95] at hc
      omega
    | cons c' t' =>
      obtain ⟨w, hw⟩ := hp
      simp only [List.cons_append] at hw
      injection hw with h1 h2
      subst h1
      by_cases he : d = t'
      · subst he
        exact hne rfl
      · exact ih (fun x hx => hd x (by simp [hx])) (fun x hx => hd' x (by simp [hx]))
          he u v ⟨w, h2⟩

/-- Facts about windows opening strictly inside a stem and running to an
underscore: their first two characters are not both underscores. -/
theorem mid_chunk_facts {stem : Str} (hok : stemOK stem) {m : Nat}
    (hm : m < stem.length) (rest : Str) :
    (stem.drop m ++ '_' :: rest).take 2 ≠ ['_', '_'] ∧
    stem.drop m ++ '_' :: rest ≠ ['_'] ∧
    stem.drop m ++ '_' :: rest ≠ ([] : Str) := by
  obtain ⟨ht2, ht1⟩ := hok.2.2 m hm
  have hne : stem.drop m ≠ [] := by
    intro e
    have he := congrArg List.length e
    simp only [List.length_drop, List.length_nil] at he
    omega
  rcases hd : stem.drop m with - | ⟨d, D⟩
  · exact absurd hd hne
  · rw [hd] at ht2 ht1
    rcases D with - | ⟨d₂, D'⟩
    · have hdne : d ≠ '_' := fun e => ht1 (by rw [e])
      refine ⟨?_, by simp, by simp⟩
      intro e
      rw [List.singleton_append, List.take_succ_cons] at e
      injection e with e1 _
      exact hdne e1
    · refine ⟨?_, by simp, by simp⟩
      intro e
      rw [List.cons_append, List.cons_append, List.take_succ_cons,
        List.take_succ_cons, List.take_zero] at e
      injection e with e1 e'
      injection e' with e2 _
      exact ht2 (by rw [List.take_succ_cons, List.take_succ_cons, List.take_zero, e1, e2])

/-! #### Enumerating suffixes -/

theorem suffix_of_append {A B x1 x2 : Str} (h : x1 ++ x2 = A ++ B) :
    (∃ a2, x2 = a2 ++ B ∧ ∃ a1, A = a1 ++ a2) ∨ ∃ b1, B = b1 ++ x2 := by
  rcases List.append_eq_append_iff.mp h with ⟨a', ha1, ha2⟩ | ⟨c', hc1, hc2⟩
  · exact Or.inl ⟨a', ha2, x1, ha1⟩
  · exact Or.inr ⟨c', hc2⟩

theorem suffix_cons2 {c₁ c₂ : Char} {T x1 x2 : Str} (h : x1 ++ x2 = c₁ :: c₂ :: T) :
    x2 = c₁ :: c₂ :: T ∨ x2 = c₂ :: T ∨ ∃ b, b ++ x2 = T := by
  cases x1 with
  | nil =>
    left
    simpa using h
  | cons a x1' =>
    cases x1' with
    | nil =>
      right; left
      injection h
    | cons a' x1'' =>
      right; right
      rw [List.cons_append, List.cons_append] at h
      injection h with _ h2
      injection h2 with _ h3
      exact ⟨x1'', h3⟩

theorem suffix_cons1 {c₁ : Char} {T x1 x2 : Str} (h : x1 ++ x2 = c₁ :: T) :
    x2 = c₁ :: T ∨ ∃ b, b ++ x2 = T := by
  cases x1 with
  | nil =>
    left
    simpa using h
  | cons a x1' =>
    right
    rw [List.cons_append] at h
    injection h with _ h2
    exact ⟨x1', h2⟩

theorem suffix_of_uu {a1 a2 : Str} (h : (['_', '_'] : Str) = a1 ++ a2) :
    a2 = ['_', '_'] ∨ a2 = ['_'] ∨ a2 = [] := by
  rcases suffix_cons2 h.symm with h' | h' | ⟨b, hb⟩
  · exact Or.inl h'
  · exact Or.inr (Or.inl h')
  · exact Or.inr (Or.inr (List.append_eq_nil.mp hb).2)

theorem suffix_of_u {a1 a2 : Str} (h : (['_'] : Str) = a1 ++ a2) :
    a2 = ['_'] ∨ a2 = [] := by
  rcases suffix_cons1 h.symm with h' | ⟨b, hb⟩
  · exact Or.inl h'
  · exact Or.inr (List.append_eq_nil.mp hb).2

/-! #### No stem occurrence at the head of safe lookaheads -/

/-- The lookahead after a layout component: either the end of the text or a
double-underscore-led placeholder. -/
def UULed (Y : Str) : Prop := Y = [] ∨ ∃ Z, Y = '_' :: '_' :: Z

/-- The lookahead after a placeholder: a stem-free chunk followed by a
`UULed` rest. -/
def ChunkThen (stem Y : Str) : Prop :=
  ∃ A R, Y = A ++ R ∧ hasSub A stem = false ∧ UULed R

theorem no_stem_prefix {stem : Str} (hok : stemOK stem)
    {A : Str} (hA : hasSub A stem = false)
    {R : Str} (hR : UULed R) :
    ¬ stem <+: (A ++ R) := by
  intro hp
  by_cases hlen : stem.length ≤ A.length
  · have hpa : stem <+: A :=
      List.prefix_of_prefix_length_le hp (List.prefix_append A R) hlen
    obtain ⟨u, hu⟩ := hpa
    have hstep : hasSub A stem = true :=
      hasSub_of_decomp (a := []) (b := u) (by rw [← hu]; simp)
    rw [hstep] at hA
    cases hA
  · push_neg at hlen
    obtain ⟨u, hu⟩ := hp
    have h := congrArg (List.drop A.length) hu
    rw [List.drop_append_eq_append_drop, List.drop_append_eq_append_drop,
      Nat.sub_eq_zero_of_le hlen.le, Nat.sub_self, List.drop_zero,
      List.drop_length, List.nil_append] at h
    rcases hR with rfl | ⟨Z, rfl⟩
    · obtain ⟨h1, -⟩ := List.append_eq_nil.mp h
      have he := congrArg List.length h1
      simp only [List.length_drop, List.length_nil] at he
      omega
    · obtain ⟨ht2, ht1⟩ := hok.2.2 A.length hlen
      have htne : stem.drop A.length ≠ [] := by
        intro e
        have he := congrArg List.length e
        simp only [List.length_drop, List.length_nil] at he
        omega
      exact not_prefix_uu ht2 ht1 htne Z ⟨u, h⟩

theorem no_u_stem_prefix {stem : Str} (hok : stemOK stem)
    {A : Str} (hA : hasSub A stem = false)
    {R : Str} (hR : UULed R) (t : Str) :
    ¬ ('_' :: (stem ++ t)) <+: (A ++ R) := by
  intro hp
  cases A with
  | nil =>
    rcases hR with rfl | ⟨Z, rfl⟩
    · obtain ⟨u, hu⟩ := hp
      simp at hu
    · obtain ⟨u, hu⟩ := hp
      simp only [List.nil_append, List.cons_append] at hu
      injection hu with _ hu'
      obtain ⟨c, t0, hst, hc⟩ := stemOK_head hok
      rw [hst] at hu'
      simp only [List.cons_append] at hu'
      injection hu' with hc' _
      exact hc hc'
  | cons a A' =>
    obtain ⟨u, hu⟩ := hp
    simp only [List.cons_append] at hu
    injection hu with _ hu'
    have hA' : hasSub A' stem = false :=
      not_hasSub_of_infix hA ⟨[a], [], by simp⟩
    exact no_stem_prefix hok hA' hR ⟨t ++ u, by rw [← List.append_assoc]; exact hu'⟩

/-- No placeholder token can start at any position of a stem-free chunk
whose lookahead is empty or a further placeholder. -/
theorem ph_no_prefix_in_free {stem : Str} (k : Nat) (hok : stemOK stem)
    {S : Str} (hS : hasSub S stem = false) {Y : Str} (hY : UULed Y) :
    ∀ x1 x2, S = x1 ++ x2 → x2 ≠ [] → ¬ mkPh stem k <+: (x2 ++ Y) := by
  intro x1 x2 hsplit hne hp
  obtain ⟨w, hw⟩ := hp
  rcases List.append_eq_append_iff.mp hw with ⟨a', ha1, ha2⟩ | ⟨c', hc1, hc2⟩
  · have hstep : hasSub S stem = true := by
      refine hasSub_of_decomp (a := x1 ++ ['_', '_'])
        (b := ('_' :: (natStr k ++ ['_', '_'])) ++ a') ?_
      rw [hsplit, ha1, mkPh_decomp]
      simp
    rw [hstep] at hS
    cases hS
  · by_cases hc'nil : c' = []
    · subst hc'nil
      rw [List.append_nil] at hc1
      have hstep : hasSub S stem = true := by
        refine hasSub_of_decomp (a := x1 ++ ['_', '_'])
          (b := '_' :: (natStr k ++ ['_', '_'])) ?_
        rw [hsplit, ← hc1, mkPh_decomp]
        simp
      rw [hstep] at hS
      cases hS
    · rcases hY with rfl | ⟨Z, rfl⟩
      · exact hc'nil (List.append_eq_nil.mp hc2.symm).1
      · have hq : x2 ++ c' = '_' :: '_' :: (stem ++ '_' :: (natStr k ++ ['_', '_'])) :=
          hc1.symm
        rcases suffix_cons2 hq with hfull | hx | ⟨b1, hb1⟩
        · apply hne
          have hlen := congrArg List.length hc1
          rw [List.length_append] at hlen
          have hcl := congrArg List.length hfull
          have hmk : (mkPh stem k).length =
              ('_' :: '_' :: (stem ++ '_' :: (natStr k ++ ['_', '_']))).length := rfl
          refine List.length_eq_zero.mp ?_
          omega
        · rw [hx] at hc2
          simp only [List.cons_append] at hc2
          injection hc2 with _ h'
          obtain ⟨c, t0, hst, hcne⟩ := stemOK_head hok
          rw [hst] at h'
          simp only [List.cons_append] at h'
          injection h' with hc' _
          exact hcne hc'.symm
        · rcases suffix_of_append hb1 with ⟨s2, hcs, s1, hs⟩ | ⟨b2, hb2⟩
          · by_cases hs2 : s2 = []
            · subst hs2
              rw [List.nil_append] at hcs
              rw [hcs] at hc2
              simp only [List.cons_append] at hc2
              injection hc2 with _ h'
              rcases hD : natStr k with - | ⟨d0, D0⟩
              · exact absurd hD (natStr_ne_nil k)
              · rw [hD] at h'
                simp only [List.cons_append] at h'
                injection h' with hd _
                exact natStr_no_underscore (by rw [hD]; simp) hd.symm
            · have hm : s1.length < stem.length := by
                have hl := congrArg List.length hs
                rw [List.length_append] at hl
                have hp2 : 0 < s2.length := List.length_pos.mpr hs2
                omega
              have hdrop : stem.drop s1.length = s2 := by
                rw [hs, List.drop_left]
              obtain ⟨ht2, ht1, htne⟩ := mid_chunk_facts hok hm (natStr k ++ ['_', '_'])
              rw [hdrop] at ht2 ht1 htne
              rw [hcs] at hc2
              exact not_prefix_uu ht2 ht1 htne Z ⟨w, hc2.symm⟩
          · rcases suffix_cons1 hb2.symm with hx2 | ⟨b3, hb3⟩
            · rw [hx2] at hc2
              simp only [List.cons_append] at hc2
              injection hc2 with _ h'
              rcases hD : natStr k with - | ⟨d0, D0⟩
              · exact absurd hD (natStr_ne_nil k)
              · rw [hD] at h'
                simp only [List.cons_append] at h'
                injection h' with hd _
                exact natStr_no_underscore (by rw [hD]; simp) hd.symm
            · rcases suffix_of_append hb3 with ⟨d2, hcd, d1, hd1⟩ | ⟨b4, hb4⟩
              · by_cases hd2 : d2 = []
                · subst hd2
                  rw [List.nil_append] at hcd
                  have hx2v : x2 = '_' :: '_' :: (stem ++ '_' :: natStr k) := by
                    have h' := hc1
                    rw [hcd, mkPh_snoc_uu] at h'
                    exact (List.append_cancel_right h').symm
                  have hstep : hasSub S stem = true := by
                    refine hasSub_of_decomp (a := x1 ++ ['_', '_'])
                      (b := '_' :: natStr k) ?_
                    rw [hsplit, hx2v]
                    simp
                  rw [hstep] at hS
                  cases hS
                · rcases hd2' : d2 with - | ⟨e0, E0⟩
                  · exact absurd hd2' hd2
                  · have he0 : e0 ∈ natStr k := by
                      rw [hd1, hd2']
                      simp
                    rw [hcd, hd2'] at hc2
                    simp only [List.cons_append] at hc2
                    injection hc2 with hd _
                    exact natStr_no_underscore he0 hd.symm
              · rcases suffix_of_uu hb4 with hcu | hcu | hcu
                · have hx2v : x2 = '_' :: '_' :: (stem ++ '_' :: natStr k) := by
                    have h' := hc1
                    rw [hcu, mkPh_snoc_uu] at h'
                    exact (List.append_cancel_right h').symm
                  have hstep : hasSub S stem = true := by
                    refine hasSub_of_decomp (a := x1 ++ ['_', '_'])
                      (b := '_' :: natStr k) ?_
                    rw [hsplit, hx2v]
                    simp
                  rw [hstep] at hS
                  cases hS
                · have hx2v : x2 = '_' :: '_' :: (stem ++ '_' :: (natStr k ++ ['_'])) := by
                    have h' := hc1
                    rw [hcu, mkPh_snoc_u] at h'
                    exact (List.append_cancel_right h').symm
                  have hstep : hasSub S stem = true := by
                    refine hasSub_of_decomp (a := x1 ++ ['_', '_'])
                      (b := '_' :: (natStr k ++ ['_'])) ?_
                    rw [hsplit, hx2v]
                    simp
                  rw [hstep] at hS
                  cases hS
                · exact hc'nil hcu

/-- No placeholder token can start at any position of a different
placeholder token whose lookahead is a stem-free chunk followed by a
placeholder or the end. -/
theorem ph_no_prefix_in_ph {stem stem' : Str} {k k' : Nat}
    (hok : stemOK stem) (hok' : stemOK stem')
    (hpair : stem = stem' ∨ stem.head? ≠ stem'.head?)
    (hne : mkPh stem k ≠ mkPh stem' k')
    {Y : Str} (hY : ChunkThen stem Y) :
    ∀ x1 x2, mkPh stem' k' = x1 ++ x2 → x2 ≠ [] → ¬ mkPh stem k <+: (x2 ++ Y) := by
  intro x1 x2 hq hne2 hp
  have hq' : x1 ++ x2 = '_' :: '_' :: (stem' ++ '_' :: (natStr k' ++ ['_', '_'])) :=
    hq.symm
  rcases suffix_cons2 hq' with hful | hx | ⟨b1, hb1⟩
  · rw [hful] at hp
    rcases hpair with rfl | hhd
    · have hDD : natStr k ≠ natStr k' := by
        intro e
        exact hne (by unfold mkPh; rw [e])
      rw [mkPh_mid] at hp
      have htg : ('_' :: '_' :: (stem ++ '_' :: (natStr k' ++ ['_', '_']))) ++ Y =
          ('_' :: '_' :: (stem ++ ['_'])) ++ (natStr k' ++ '_' :: '_' :: Y) := by
        simp
      rw [htg, List.prefix_append_right_inj] at hp
      exact digits_mismatch (fun c hc => natStr_digits k c hc)
        (fun c hc => natStr_digits k' c hc) hDD [] Y hp
    · obtain ⟨c, t0, hst, -⟩ := stemOK_head hok
      obtain ⟨c', t0', hst', -⟩ := stemOK_head hok'
      have hcc : c ≠ c' := by
        intro e
        apply hhd
        rw [hst, hst', e]
        rfl
      obtain ⟨w, hw⟩ := hp
      rw [mkPh_decomp] at hw
      simp only [List.cons_append, List.nil_append, List.append_assoc,
        List.singleton_append] at hw
      injection hw with _ hw1
      injection hw1 with _ hw2
      rw [hst, hst'] at hw2
      simp only [List.cons_append] at hw2
      injection hw2 with he _
      exact hcc he
  · rw [hx] at hp
    obtain ⟨w, hw⟩ := hp
    rw [mkPh_decomp] at hw
    simp only [List.cons_append, List.nil_append, List.append_assoc,
      List.singleton_append] at hw
    injection hw with _ hw1
    obtain ⟨c', t0', hst', hcne'⟩ := stemOK_head hok'
    rw [hst'] at hw1
    simp only [List.cons_append] at hw1
    injection hw1 with he _
    exact hcne' he.symm
  · rcases suffix_of_append hb1 with ⟨s2, hxs, s1, hs⟩ | ⟨b2, hb2⟩
    · by_cases hs2 : s2 = []
      · subst hs2
        rw [List.nil_append] at hxs
        rcases hD : natStr k' with - | ⟨d0, D0⟩
        · exact absurd hD (natStr_ne_nil k')
        · have hd0 : d0 ≠ '_' := natStr_no_underscore (by rw [hD]; simp)
          rw [hxs, hD] at hp
          refine uu_not_prefix_left ?_ ?_ ?_ _ Y hp
          · intro e
            rw [List.cons_append, List.take_succ_cons, List.take_succ_cons] at e
            injection e with _ e2
            injection e2 with e3 _
            exact hd0 e3
          · intro e
            injection e with _ e2
            simp at e2
          · simp
      · have hm : s1.length < stem'.length := by
          have hl := congrArg List.length hs
          rw [List.length_append] at hl
          have hp2 : 0 < s2.length := List.length_pos.mpr hs2
          omega
        have hdrop : stem'.drop s1.length = s2 := by
          rw [hs, List.drop_left]
        obtain ⟨ht2, ht1, htne⟩ := mid_chunk_facts hok' hm (natStr k' ++ ['_', '_'])
        rw [hdrop] at ht2 ht1 htne
        rw [hxs] at hp
        exact uu_not_prefix_left ht2 ht1 htne _ Y hp
    · rcases suffix_cons1 hb2.symm with hx2 | ⟨b3, hb3⟩
      · rcases hD : natStr k' with - | ⟨d0, D0⟩
        · exact absurd hD (natStr_ne_nil k')
        · have hd0 : d0 ≠ '_' := natStr_no_underscore (by rw [hD]; simp)
          rw [hx2, hD] at hp
          refine uu_not_prefix_left ?_ ?_ ?_ _ Y hp
          · intro e
            rw [List.cons_append, List.take_succ_cons, List.take_succ_cons] at e
            injection e with _ e2
            injection e2 with e3 _
            exact hd0 e3
          · intro e
            injection e with _ e2
            simp at e2
          · simp
      · rcases suffix_of_append hb3 with ⟨d2, hxd, d1, hd1⟩ | ⟨b4, hb4⟩
        · by_cases hd2 : d2 = []
          · subst hd2
            rw [List.nil_append] at hxd
            obtain ⟨A, R, hYar, hAfree, hRuu⟩ := hY
            rw [hxd] at hp
            obtain ⟨w, hw⟩ := hp
            rw [mkPh_decomp] at hw
            simp only [List.cons_append, List.nil_append, List.append_assoc,
              List.singleton_append] at hw
            injection hw with _ hw1
            injection hw1 with _ hw2
            rw [hYar] at hw2
            exact no_stem_prefix hok hAfree hRuu ⟨_, hw2⟩
          · rcases hd2' : d2 with - | ⟨e0, E0⟩
            · exact absurd hd2' hd2
            · have he0 : e0 ∈ natStr k' := by
                rw [hd1, hd2']
                simp
              have he0' : e0 ≠ '_' := natStr_no_underscore he0
              rw [hxd, hd2'] at hp
              refine uu_not_prefix_left ?_ ?_ ?_ _ Y hp
              · intro e
                rw [List.cons_append, List.take_succ_cons] at e
                injection e with e1 _
                exact he0' e1
              · intro e
                rw [List.cons_append] at e
                injection e with e1 _
                exact he0' e1
              · simp
        · rcases suffix_of_uu hb4 with hcu | hcu | hcu
          · obtain ⟨A, R, hYar, hAfree, hRuu⟩ := hY
            rw [hcu] at hp
            obtain ⟨w, hw⟩ := hp
            rw [mkPh_decomp] at hw
            simp only [List.cons_append, List.nil_append, List.append_assoc,
              List.singleton_append] at hw
            injection hw with _ hw1
            injection hw1 with _ hw2
            rw [hYar] at hw2
            exact no_stem_prefix hok hAfree hRuu ⟨_, hw2⟩
          · obtain ⟨A, R, hYar, hAfree, hRuu⟩ := hY
            rw [hcu] at hp
            obtain ⟨w, hw⟩ := hp
            rw [mkPh_decomp] at hw
            simp only [List.cons_append, List.nil_append, List.append_assoc,
              List.singleton_append] at hw
            injection hw with _ hw1
            rw [hYar] at hw1
            exact no_u_stem_prefix hok hAfree hRuu _
              ⟨[], by rw [List.append_nil]; exact hw1⟩
          · exact hne2 hcu

/-! #### Guarded layouts

The output of `protectCodeBlocks` is described by a list of entries, each a
free chunk followed by a placeholder standing for an original span, plus a
trailing free chunk. -/

/-- One layout entry: leading free chunk, placeholder, original span. -/
abbrev Ent := Str × Str × Str

/-- The guarded side of a layout. -/
def entsFlat : List Ent → Str
  | [] => []
  | e :: t => e.1 ++ e.2.1 ++ entsFlat t

/-- The original side of a layout. -/
def entsOrig : List Ent → Str
  | [] => []
  | e :: t => e.1 ++ e.2.2 ++ entsOrig t

/-- The recorded (placeholder, original) pairs of a layout, in layout
order. -/
def entPairs (items : List Ent) : List (Str × Str) :=
  items.map (fun e => (e.2.1, e.2.2))

/-- The placeholders of a layout, in layout order. -/
def entPhs (items : List Ent) : List Str := items.map (fun e => e.2.1)

theorem entsFlat_append (a b : List Ent) :
    entsFlat (a ++ b) = entsFlat a ++ entsFlat b := by
  induction a with
  | nil => rfl
  | cons e t ih => simp [entsFlat, ih]

theorem entsOrig_append (a b : List Ent) :
    entsOrig (a ++ b) = entsOrig a ++ entsOrig b := by
  induction a with
  | nil => rfl
  | cons e t ih => simp [entsOrig, ih]

/-- Well-formed layout: every placeholder is one the guard can emit. -/
def entsWf (items : List Ent) : Prop := ∀ e ∈ items, PhWf e.2.1

theorem phwf_mk {p : Str} (h : PhWf p) :
    ∃ stem k, p = mkPh stem k ∧ stemOK stem ∧ (stem = stemI ∨ stem = stemB) := by
  rcases h with ⟨k, rfl⟩ | ⟨k, rfl⟩
  · exact ⟨stemI, k, phI_mkPh k, stemI_ok, Or.inl rfl⟩
  · exact ⟨stemB, k, phB_mkPh k, stemB_ok, Or.inr rfl⟩

theorem stem_pair_cases {s s' : Str} (h : s = stemI ∨ s = stemB)
    (h' : s' = stemI ∨ s' = stemB) : s = s' ∨ s.head? ≠ s'.head? := by
  rcases h with rfl | rfl <;> rcases h' with rfl | rfl
  · exact Or.inl rfl
  · exact Or.inr (by decide)
  · exact Or.inr (by decide)
  · exact Or.inl rfl

theorem uuled_mk (stem : Str) (k : Nat) (rest : Str) :
    UULed (mkPh stem k ++ rest) :=
  Or.inr ⟨(stem ++ '_' :: (natStr k ++ ['_', '_'])) ++ rest, rfl⟩

/-- A layout's guarded side, followed by a safe tail, is itself a safe
lookahead for a placeholder search. -/
theorem chunkThen_flat (stem : Str) : ∀ (items : List Ent) (T : Str),
    entsWf items →
    (∀ e ∈ items, hasSub e.1 stem = false) →
    ChunkThen stem T →
    ChunkThen stem (entsFlat items ++ T) := by
  intro items
  induction items with
  | nil =>
    intro T _ _ hT
    simpa [entsFlat] using hT
  | cons e t ih =>
    intro T hwf hfree hT
    refine ⟨e.1, e.2.1 ++ (entsFlat t ++ T), ?_, hfree e (by simp), ?_⟩
    · simp [entsFlat]
    · obtain ⟨s, k, hpk, -, -⟩ := phwf_mk (hwf e (by simp))
      rw [hpk]
      exact uuled_mk s k _

/-- Extraction of component stem-freeness from stem-freeness of the
original side. -/
theorem hasSub_components {stem : Str} : ∀ {items : List Ent} {hend : Str},
    hasSub (entsOrig items ++ hend) stem = false →
    (∀ e ∈ items, hasSub e.1 stem = false ∧ hasSub e.2.2 stem = false) ∧
    hasSub hend stem = false := by
  intro items
  induction items with
  | nil =>
    intro hend h
    refine ⟨by simp, ?_⟩
    simpa [entsOrig] using h
  | cons e t ih =>
    intro hend h
    have hshape : entsOrig (e :: t) ++ hend = e.1 ++ (e.2.2 ++ (entsOrig t ++ hend)) := by
      simp [entsOrig]
    rw [hshape] at h
    have h1 : hasSub e.1 stem = false :=
      not_hasSub_of_infix h ⟨[], e.2.2 ++ (entsOrig t ++ hend), by simp⟩
    have h2 : hasSub e.2.2 stem = false :=
      not_hasSub_of_infix h ⟨e.1, entsOrig t ++ hend, by simp⟩
    have h3 : hasSub (entsOrig t ++ hend) stem = false :=
      not_hasSub_of_infix h ⟨e.1 ++ e.2.2, [], by simp⟩
    obtain ⟨hall, hh⟩ := ih h3
    refine ⟨?_, hh⟩
    intro x hx
    rcases List.mem_cons.mp hx with rfl | hx
    · exact ⟨h1, h2⟩
    · exact hall x hx

/-- Extraction of component dollar-freeness from dollar-freeness of the
original side. -/
theorem dollar_components : ∀ {items : List Ent} (hend : Str),
    dollar ∉ entsOrig items ++ hend →
    ∀ e ∈ items, dollar ∉ e.2.2 := by
  intro items
  induction items with
  | nil =>
    intro hend _ e he
    cases he
  | cons e t ih =>
    intro hend h x hx
    have hshape : entsOrig (e :: t) ++ hend = e.1 ++ (e.2.2 ++ (entsOrig t ++ hend)) := by
      simp [entsOrig]
    rw [hshape] at h
    simp only [List.mem_append] at h
    push_neg at h
    rcases List.mem_cons.mp hx with rfl | hx
    · exact h.2.1
    · refine ih hend ?_ x hx
      simp only [List.mem_append]
      push_neg
      exact h.2.2

/-- Scanning for a first occurrence skips over text none of whose positions
can start a match. -/
theorem splitOnFirst_skip {p : Str} : ∀ (X : Str) {Y : Str},
    (∀ x1 x2, X = x1 ++ x2 → x2 ≠ [] → ¬ p <+: (x2 ++ Y)) →
    splitOnFirst (X ++ Y) p =
      (splitOnFirst Y p).map (fun pr => (X ++ pr.1, pr.2)) := by
  intro X
  induction X with
  | nil =>
    intro Y _
    rw [List.nil_append]
    rcases hs : splitOnFirst Y p with - | ⟨a, b⟩
    · simp
    · simp
  | cons c X' ih =>
    intro Y h
    have hnp : p.isPrefixOf (c :: (X' ++ Y)) = false := by
      rw [← Bool.not_eq_true, List.isPrefixOf_iff_prefix]
      exact h [] (c :: X') rfl (by simp)
    rw [List.cons_append, splitOnFirst_cons_of_not hnp,
      ih (fun x1 x2 hx hxe => h (c :: x1) x2 (by rw [hx]; rfl) hxe)]
    rcases hs : splitOnFirst Y p with - | ⟨a, b⟩
    · simp
    · simp

/-- In a well-formed guarded layout whose chunks are free of the searched
placeholder's stem and whose earlier placeholders differ from it, the first
occurrence of the placeholder is its own layout position. -/
theorem splitOnFirst_layout {p stem : Str} {k : Nat}
    (hpk : p = mkPh stem k) (hok : stemOK stem)
    (hkindp : stem = stemI ∨ stem = stemB) :
    ∀ (pre : List Ent), ∀ {l T : Str},
    entsWf pre →
    (∀ e ∈ pre, hasSub e.1 stem = false) →
    (∀ e ∈ pre, e.2.1 ≠ p) →
    hasSub l stem = false →
    splitOnFirst (entsFlat pre ++ (l ++ (p ++ T))) p =
      some (entsFlat pre ++ l, T) := by
  intro pre
  induction pre with
  | nil =>
    intro l T _ _ _ hl
    have hcond : ∀ x1 x2, l = x1 ++ x2 → x2 ≠ [] → ¬ p <+: (x2 ++ (p ++ T)) := by
      intro x1 x2 hx hxe
      rw [hpk]
      exact ph_no_prefix_in_free k hok hl (hpk ▸ uuled_mk stem k T) x1 x2 hx hxe
    have e1 : splitOnFirst (l ++ (p ++ T)) p =
        (splitOnFirst (p ++ T) p).map (fun pr => (l ++ pr.1, pr.2)) :=
      splitOnFirst_skip l hcond
    simp only [entsFlat, List.nil_append]
    rw [e1, splitOnFirst_self]
    simp
  | cons e pre' ih =>
    intro l T hwf hfree hnotp hl
    obtain ⟨s', k', hq, hok', hkind'⟩ := phwf_mk (hwf e (by simp))
    have hflat : entsFlat (e :: pre') ++ (l ++ (p ++ T)) =
        e.1 ++ (e.2.1 ++ (entsFlat pre' ++ (l ++ (p ++ T)))) := by
      simp [entsFlat]
    rw [hflat]
    have hct : ChunkThen stem (entsFlat pre' ++ (l ++ (p ++ T))) := by
      refine chunkThen_flat stem pre' _ (fun x hx => hwf x (by simp [hx]))
        (fun x hx => hfree x (by simp [hx])) ?_
      exact ⟨l, p ++ T, rfl, hl, by rw [hpk]; exact uuled_mk stem k T⟩
    have hcond1 : ∀ x1 x2, e.1 = x1 ++ x2 → x2 ≠ [] →
        ¬ p <+: (x2 ++ (e.2.1 ++ (entsFlat pre' ++ (l ++ (p ++ T))))) := by
      intro x1 x2 hx hxe
      rw [hpk]
      refine ph_no_prefix_in_free k hok (hfree e (by simp)) ?_ x1 x2 hx hxe
      rw [hq]
      exact uuled_mk s' k' _
    have hcond2 : ∀ x1 x2, e.2.1 = x1 ++ x2 → x2 ≠ [] →
        ¬ p <+: (x2 ++ (entsFlat pre' ++ (l ++ (p ++ T)))) := by
      intro x1 x2 hx hxe
      have hnep : mkPh stem k ≠ mkPh s' k' := by
        rw [← hpk, ← hq]
        exact fun hh => (hnotp e (by simp)) hh.symm
      rw [hpk] at hct ⊢
      refine ph_no_prefix_in_ph hok hok' (stem_pair_cases hkindp hkind') hnep hct
        x1 x2 ?_ hxe
      rw [← hq]
      exact hx
    rw [splitOnFirst_skip e.1 hcond1, splitOnFirst_skip e.2.1 hcond2,
      ih (fun x hx => hwf x (by simp [hx])) (fun x hx => hfree x (by simp [hx]))
        (fun x hx => hnotp x (by simp [hx])) hl]
    simp [entsFlat]

theorem entPairs_append (a b : List Ent) :
    entPairs (a ++ b) = entPairs a ++ entPairs b := List.map_append _ _ _

theorem entPhs_append (a b : List Ent) :
    entPhs (a ++ b) = entPhs a ++ entPhs b := List.map_append _ _ _

theorem jsReplaceFirst_of_split {s pat rep a b : Str}
    (h : splitOnFirst s pat = some (a, b)) (hrep : dollar ∉ rep) :
    jsReplaceFirst s pat rep = a ++ (rep ++ b) := by
  unfold jsReplaceFirst
  rw [h]
  show a ++ processDollar rep pat a b ++ b = a ++ (rep ++ b)
  rw [processDollar_id hrep]
  simp

/-- Absorbing a restored span into the following chunk of a layout. -/
def absorb (x : Str) : List Ent → Str → List Ent × Str
  | [], hend => ([], x ++ hend)
  | f :: t, hend => ((x ++ f.1, f.2.1, f.2.2) :: t, hend)

theorem absorb_flat (x : Str) (post : List Ent) (hend : Str) :
    entsFlat (absorb x post hend).1 ++ (absorb x post hend).2 =
      x ++ (entsFlat post ++ hend) := by
  cases post with
  | nil => simp [absorb, entsFlat]
  | cons f t => simp [absorb, entsFlat]

theorem absorb_orig (x : Str) (post : List Ent) (hend : Str) :
    entsOrig (absorb x post hend).1 ++ (absorb x post hend).2 =
      x ++ (entsOrig post ++ hend) := by
  cases post with
  | nil => simp [absorb, entsOrig]
  | cons f t => simp [absorb, entsOrig]

theorem absorb_pairs (x : Str) (post : List Ent) (hend : Str) :
    entPairs (absorb x post hend).1 = entPairs post := by
  cases post with
  | nil => rfl
  | cons f t => rfl

theorem absorb_phs (x : Str) (post : List Ent) (hend : Str) :
    entPhs (absorb x post hend).1 = entPhs post := by
  cases post with
  | nil => rfl
  | cons f t => rfl

theorem absorb_wf {post : List Ent} (x hend : Str)
    (h : entsWf post) : entsWf (absorb x post hend).1 := by
  cases post with
  | nil =>
    intro e he
    cases he
  | cons f t =>
    intro e he
    rcases List.mem_cons.mp he with rfl | he
    · exact h f (by simp)
    · exact h e (by simp [he])

/-- Restoring all recorded pairs of a well-formed layout, in any order,
recovers the original side exactly, provided the original side contains
neither placeholder stem nor a dollar character. -/
theorem restore_layout : ∀ (P : List (Str × Str)) (items : List Ent) (hend : Str),
    List.Perm (entPairs items) P →
    entsWf items →
    (entPhs items).Nodup →
    hasSub (entsOrig items ++ hend) stemI = false →
    hasSub (entsOrig items ++ hend) stemB = false →
    dollar ∉ entsOrig items ++ hend →
    restoreCodeBlocks (entsFlat items ++ hend) P = entsOrig items ++ hend := by
  intro P
  induction P with
  | nil =>
    intro items hend hperm _ _ _ _ _
    have hpn : entPairs items = [] := List.perm_nil.mp hperm
    have hitems : items = [] := by
      cases items with
      | nil => rfl
      | cons e t => simp [entPairs] at hpn
    subst hitems
    rfl
  | cons po P' ih =>
    intro items hend hperm hwf hnd hsI hsB hdl
    obtain ⟨p, o⟩ := po
    have hmem : (p, o) ∈ entPairs items := hperm.mem_iff.mpr (by simp)
    obtain ⟨e, hein, hep⟩ := List.mem_map.mp hmem
    obtain ⟨hp1, ho1⟩ := Prod.mk.injEq .. ▸ hep
    obtain ⟨pre, post, hitems⟩ := List.append_of_mem hein
    subst hitems
    obtain ⟨stem, k, hpk0, hok, hkindp⟩ := phwf_mk (hwf e (by simp))
    have hpk : p = mkPh stem k := hp1 ▸ hpk0
    have hcompS : (∀ x ∈ pre ++ e :: post, hasSub x.1 stem = false ∧
        hasSub x.2.2 stem = false) ∧ hasSub hend stem = false := by
      rcases hkindp with rfl | rfl
      · exact hasSub_components hsI
      · exact hasSub_components hsB
    have hphs : entPhs (pre ++ e :: post) = entPhs pre ++ e.2.1 :: entPhs post := by
      simp [entPhs]
    have hnotp : ∀ x ∈ pre, x.2.1 ≠ p := by
      intro x hx hxe
      rw [hphs] at hnd
      obtain ⟨-, -, hdisj⟩ := List.nodup_append.mp hnd
      have hm1 : x.2.1 ∈ entPhs pre := by
        simp only [entPhs, List.mem_map]
        exact ⟨x, hx, rfl⟩
      have hm2 : x.2.1 ∈ e.2.1 :: entPhs post := by
        have hxx : x.2.1 = e.2.1 := by rw [hxe, hp1]
        rw [hxx]
        simp
      exact hdisj hm1 hm2
    have hfshape : entsFlat (pre ++ e :: post) ++ hend =
        entsFlat pre ++ (e.1 ++ (p ++ (entsFlat post ++ hend))) := by
      rw [entsFlat_append]
      simp [entsFlat, hp1]
    have hsplit : splitOnFirst (entsFlat (pre ++ e :: post) ++ hend) p =
        some (entsFlat pre ++ e.1, entsFlat post ++ hend) := by
      rw [hfshape]
      exact splitOnFirst_layout hpk hok hkindp pre
        (fun x hx => hwf x (by simp [hx]))
        (fun x hx => (hcompS.1 x (by simp [hx])).1) hnotp
        (hcompS.1 e (by simp)).1
    have hdlo : dollar ∉ o := by
      rw [← ho1]
      exact dollar_components hend hdl e (by simp)
    have hjs : jsReplaceFirst (entsFlat (pre ++ e :: post) ++ hend) p o =
        (entsFlat pre ++ e.1) ++ (o ++ (entsFlat post ++ hend)) := by
      rw [jsReplaceFirst_of_split hsplit hdlo]
    have hperm' : List.Perm (entPairs (pre ++ (absorb (e.1 ++ o) post hend).1)) P' := by
      have h1 : entPairs (pre ++ e :: post) = entPairs pre ++ (p, o) :: entPairs post := by
        rw [entPairs_append]
        have h1' : entPairs (e :: post) = (p, o) :: entPairs post := by
          show (e.2.1, e.2.2) :: entPairs post = (p, o) :: entPairs post
          rw [hp1, ho1]
        rw [h1']
      rw [h1] at hperm
      have h2 := (List.perm_middle.symm.trans hperm).cons_inv
      rw [entPairs_append, absorb_pairs]
      exact h2
    have hwf' : entsWf (pre ++ (absorb (e.1 ++ o) post hend).1) := by
      intro x hx
      rcases List.mem_append.mp hx with hx | hx
      · exact hwf x (by simp [hx])
      · exact absorb_wf (e.1 ++ o) hend (fun y hy => hwf y (by simp [hy])) x hx
    have hnd' : (entPhs (pre ++ (absorb (e.1 ++ o) post hend).1)).Nodup := by
      rw [entPhs_append, absorb_phs]
      rw [hphs] at hnd
      exact hnd.sublist
        ((List.sublist_cons_self e.2.1 (entPhs post)).append_left (entPhs pre))
    have horig : entsOrig (pre ++ (absorb (e.1 ++ o) post hend).1) ++
        (absorb (e.1 ++ o) post hend).2 = entsOrig (pre ++ e :: post) ++ hend := by
      rw [entsOrig_append, List.append_assoc, absorb_orig, entsOrig_append]
      simp [entsOrig, ho1]
    have hflat2 : entsFlat (pre ++ (absorb (e.1 ++ o) post hend).1) ++
        (absorb (e.1 ++ o) post hend).2 =
        (entsFlat pre ++ e.1) ++ (o ++ (entsFlat post ++ hend)) := by
      rw [entsFlat_append, List.append_assoc, absorb_flat]
      simp
    have hres := ih (pre ++ (absorb (e.1 ++ o) post hend).1)
      (absorb (e.1 ++ o) post hend).2 hperm' hwf' hnd'
      (by rw [horig]; exact hsI) (by rw [horig]; exact hsB)
      (by rw [horig]; exact hdl)
    have hstep : restoreCodeBlocks (entsFlat (pre ++ e :: post) ++ hend) ((p, o) :: P') =
        restoreCodeBlocks (jsReplaceFirst (entsFlat (pre ++ e :: post) ++ hend) p o)
          P' := rfl
    rw [hstep, hjs, ← hflat2, hres, horig]

/-! #### The inline pass produces a layout -/

theorem absorb_length (x : Str) (post : List Ent) (hend : Str) :
    (absorb x post hend).1.length = post.length := by
  cases post with
  | nil => rfl
  | cons f t => rfl

/-- The correspondence between a text/counter pair and a layout describing
the inline pass output on it. -/
def InlineLayout (s : Str) (k : Nat) (items : List Ent) (hend : Str) : Prop :=
  (inlinePass s k).1 = entsFlat items ++ hend ∧
  (inlinePass s k).2.1 = entPairs items ∧
  entsOrig items ++ hend = s ∧
  (inlinePass s k).2.2 = k + items.length ∧
  entPhs items = (List.range' k items.length).map phI

theorem inlineLayout_emit {c : Char} {rest : Str} {k : Nat}
    (hemit : c = bq → inlineHead rest = none)
    {items : List Ent} {hend : Str} (h : InlineLayout rest k items hend) :
    InlineLayout (c :: rest) k (absorb [c] items hend).1 (absorb [c] items hend).2 := by
  obtain ⟨h1, h2, h3, h4, h5⟩ := h
  have hstep := inlinePass_emit k hemit
  refine ⟨?_, ?_, ?_, ?_, ?_⟩
  · have e1 : (inlinePass (c :: rest) k).1 = c :: (inlinePass rest k).1 := by
      rw [hstep]
    rw [e1, h1, absorb_flat]
    rfl
  · have e2 : (inlinePass (c :: rest) k).2.1 = (inlinePass rest k).2.1 := by
      rw [hstep]
    rw [e2, h2, absorb_pairs]
  · rw [absorb_orig, h3]
    rfl
  · have e4 : (inlinePass (c :: rest) k).2.2 = (inlinePass rest k).2.2 := by
      rw [hstep]
    rw [e4, h4, absorb_length]
  · rw [absorb_phs, absorb_length, h5]

theorem inlineLayout_match {rest run after : Str} {k : Nat}
    (hih : inlineHead rest = some (run, after))
    {items : List Ent} {hend : Str} (h : InlineLayout after (k + 1) items hend) :
    InlineLayout (bq :: rest) k (([], phI k, bq :: (run ++ [bq])) :: items) hend := by
  obtain ⟨h1, h2, h3, h4, h5⟩ := h
  obtain ⟨hr, -, -⟩ := inlineHead_some hih
  have hstep := inlinePass_match k hih
  refine ⟨?_, ?_, ?_, ?_, ?_⟩
  · have e1 : (inlinePass (bq :: rest) k).1 = phI k ++ (inlinePass after (k + 1)).1 := by
      rw [hstep]
    rw [e1, h1]
    simp [entsFlat]
  · have e2 : (inlinePass (bq :: rest) k).2.1 =
        (phI k, bq :: (run ++ [bq])) :: (inlinePass after (k + 1)).2.1 := by
      rw [hstep]
    rw [e2, h2]
    rfl
  · show ([] : Str) ++ (bq :: (run ++ [bq])) ++ entsOrig items ++ hend = bq :: rest
    rw [hr]
    simp only [List.nil_append, List.cons_append, List.append_assoc]
    rw [h3]
  · have e4 : (inlinePass (bq :: rest) k).2.2 = (inlinePass after (k + 1)).2.2 := by
      rw [hstep]
    rw [e4, h4]
    show k + 1 + items.length = k + (items.length + 1)
    omega
  · show phI k :: entPhs items = (List.range' k (items.length + 1)).map phI
    rw [h5, List.range'_succ k items.length 1]
    simp

/-- Every text is described by some layout of the inline pass. -/
theorem inlinePass_layout : ∀ (fuel : Nat) (s : Str), s.length ≤ fuel → ∀ (k : Nat),
    ∃ items hend, InlineLayout s k items hend := by
  intro fuel
  induction fuel with
  | zero =>
    intro s hs k
    have hnil : s = [] := by
      cases s with
      | nil => rfl
      | cons c t => simp at hs
    subst hnil
    exact ⟨[], [], rfl, rfl, rfl, rfl, rfl⟩
  | succ fuel ih =>
    intro s hs k
    cases s with
    | nil => exact ⟨[], [], rfl, rfl, rfl, rfl, rfl⟩
    | cons c rest =>
      simp only [List.length_cons] at hs
      by_cases hc : c = bq
      · subst hc
        rcases hih : inlineHead rest with - | ⟨run, after⟩
        · obtain ⟨items, hend, h⟩ := ih rest (by omega) k
          exact ⟨_, _, inlineLayout_emit (fun _ => hih) h⟩
        · obtain ⟨hlen, -⟩ := inlineHead_some_length hih
          obtain ⟨items, hend, h⟩ := ih after (by omega) (k + 1)
          exact ⟨_, _, inlineLayout_match hih h⟩
      · obtain ⟨items, hend, h⟩ := ih rest (by omega) k
        exact ⟨_, _, inlineLayout_emit (fun hcb => absurd hcb hc) h⟩

/-! #### The block pass over a layout -/

/-- The block pass copies backtick-free text unchanged. -/
theorem blockPass_skip : ∀ (X : Str) {Y : Str} (k : Nat),
    (∀ c ∈ X, c ≠ bq) →
    blockPass (X ++ Y) k = (X ++ (blockPass Y k).1, (blockPass Y k).2) := by
  intro X
  induction X with
  | nil =>
    intro Y k _
    rw [List.nil_append]
    rfl
  | cons c X' ih =>
    intro Y k h
    have hc : c ≠ bq := h c (by simp)
    rw [List.cons_append, blockPass_emit k (blockHead_none_of_head hc),
      ih k (fun x hx => h x (by simp [hx]))]
    rfl

/-- No character of a placeholder is a backtick. -/
theorem ph_not_bq {p : Str} (h : PhWf p) : ∀ c ∈ p, c ≠ bq := by
  obtain ⟨stem, k, hpk, -, hkind⟩ := phwf_mk h
  subst hpk
  intro c hc
  have hstemchar : ∀ x ∈ stem, x ≠ bq := by
    rcases hkind with rfl | rfl
    · decide
    · decide
  have hu : ('_' : Char) ≠ bq := by decide
  rcases List.mem_cons.mp hc with rfl | hc
  · exact hu
  rcases List.mem_cons.mp hc with rfl | hc
  · exact hu
  rcases List.mem_append.mp hc with hc | hc
  · exact hstemchar c hc
  rcases List.mem_cons.mp hc with rfl | hc
  · exact hu
  rcases List.mem_append.mp hc with hc | hc
  · intro e
    obtain ⟨-, h57⟩ := natStr_digits k c hc
    rw [e] at h57
    exact absurd h57 (by decide)
  rcases List.mem_cons.mp hc with rfl | hc
  · exact hu
  rcases List.mem_cons.mp hc with rfl | hc
  · exact hu
  cases hc

/-- A fenced-block match starting in a chunk whose lookahead begins with an
underscore (or is empty) lies entirely within the chunk. -/
theorem block_match_within {l Q i a : Str}
    (hQ : Q = [] ∨ ∃ Z, Q = '_' :: Z)
    (hbh : blockHead (l ++ Q) = some (i, a)) :
    ∃ lrest, l = (fence ++ i ++ fence) ++ lrest ∧ a = lrest ++ Q := by
  obtain ⟨hshape, hclass⟩ := blockHead_some hbh
  have hM : ∀ x ∈ fence ++ i ++ fence, x = bq ∨ classC x = true := by
    intro x hx
    rcases List.mem_append.mp hx with hx | hx
    · rcases List.mem_append.mp hx with hx | hx
      · left
        rw [fence] at hx
        simp only [List.mem_cons] at hx
        rcases hx with rfl | rfl | rfl | hx
        · rfl
        · rfl
        · rfl
        · cases hx
      · right
        exact hclass x hx
    · left
      rw [fence] at hx
      simp only [List.mem_cons] at hx
      rcases hx with rfl | rfl | rfl | hx
      · rfl
      · rfl
      · rfl
      · cases hx
  have hsh2 : l ++ Q = (fence ++ i ++ fence) ++ a := by
    rw [hshape]
  rcases List.append_eq_append_iff.mp hsh2 with ⟨a', ha1, ha2⟩ | ⟨c', hc1, hc2⟩
  · by_cases ha' : a' = []
    · subst ha'
      rw [List.append_nil] at ha1
      refine ⟨[], ?_, ?_⟩
      · rw [List.append_nil, ha1]
      · rw [List.nil_append]
        simpa using ha2.symm
    · rcases hQ with rfl | ⟨Z, hQ'⟩
      · exact absurd (List.append_eq_nil.mp ha2.symm).1 ha'
      · rcases ha'' : a' with - | ⟨x, a''⟩
        · exact absurd ha'' ha'
        · have hx : x ∈ fence ++ i ++ fence := by
            rw [ha1, ha'']
            simp
          have hxu : x = '_' := by
            rw [hQ', ha''] at ha2
            rw [List.cons_append] at ha2
            injection ha2 with h1 _
            exact h1.symm
          rcases hM x hx with hbq | hcl
          · rw [hxu] at hbq
            exact absurd hbq (by decide)
          · rw [hxu] at hcl
            exact absurd hcl (by decide)
  · exact ⟨c', hc1, hc2⟩

theorem absorb_flat3 (x : Str) (post : List Ent) (hend X : Str) :
    entsFlat (absorb x post hend).1 ++ ((absorb x post hend).2 ++ X) =
      x ++ (entsFlat post ++ (hend ++ X)) := by
  cases post with
  | nil => simp [absorb, entsFlat]
  | cons f t => simp [absorb, entsFlat]

/-- The block pass over a chunk with a safe boundary: every match lies in
the chunk, and the produced entries tile it. -/
theorem blockPass_chunk : ∀ (fuel : Nat) (l : Str), l.length ≤ fuel →
    ∀ {Q : Str} (k : Nat), (Q = [] ∨ ∃ Z, Q = '_' :: Z) →
    ∃ bitems lend,
      (blockPass (l ++ Q) k).1 =
        entsFlat bitems ++ (lend ++ (blockPass Q (k + bitems.length)).1) ∧
      (blockPass (l ++ Q) k).2.1 =
        entPairs bitems ++ (blockPass Q (k + bitems.length)).2.1 ∧
      (blockPass (l ++ Q) k).2.2 = (blockPass Q (k + bitems.length)).2.2 ∧
      entsOrig bitems ++ lend = l ∧
      entPhs bitems = (List.range' k bitems.length).map phB := by
  intro fuel
  induction fuel with
  | zero =>
    intro l hl Q k hQ
    have hnil : l = [] := by
      cases l with
      | nil => rfl
      | cons c t => simp at hl
    subst hnil
    exact ⟨[], [], by simp [entsFlat], by simp [entPairs], by simp, rfl, rfl⟩
  | succ fuel ih =>
    intro l hl Q k hQ
    cases l with
    | nil => exact ⟨[], [], by simp [entsFlat], by simp [entPairs], by simp, rfl, rfl⟩
    | cons c l' =>
      simp only [List.length_cons] at hl
      have e0 : (c :: l') ++ Q = c :: (l' ++ Q) := rfl
      rcases hbh : blockHead ((c :: l') ++ Q) with - | ⟨i, a⟩
      · obtain ⟨bitems, lend, h1, h2, h3, h4, h5⟩ := ih l' (by omega) k hQ
        refine ⟨(absorb [c] bitems lend).1, (absorb [c] bitems lend).2, ?_, ?_, ?_, ?_, ?_⟩
        · have e1 : (blockPass ((c :: l') ++ Q) k).1 = c :: (blockPass (l' ++ Q) k).1 := by
            rw [e0] at hbh ⊢
            rw [blockPass_emit k hbh]
          rw [e1, h1, absorb_flat3, absorb_length]
          rfl
        · have e2 : (blockPass ((c :: l') ++ Q) k).2.1 = (blockPass (l' ++ Q) k).2.1 := by
            rw [e0] at hbh ⊢
            rw [blockPass_emit k hbh]
          rw [e2, h2, absorb_pairs, absorb_length]
        · have e3 : (blockPass ((c :: l') ++ Q) k).2.2 = (blockPass (l' ++ Q) k).2.2 := by
            rw [e0] at hbh ⊢
            rw [blockPass_emit k hbh]
          rw [e3, h3, absorb_length]
        · rw [absorb_orig, h4]
          rfl
        · rw [absorb_phs, absorb_length, h5]
      · obtain ⟨lrest, hlr, har⟩ := block_match_within hQ hbh
        have hstep := blockPass_match k hbh (by simp)
        have hlrlen : lrest.length ≤ fuel := by
          have hle := congrArg List.length hlr
          simp only [List.length_cons, List.length_append] at hle
          have hf : fence.length = 3 := rfl
          rw [hf] at hle
          omega
        obtain ⟨bitems', lend', h1, h2, h3, h4, h5⟩ := ih lrest hlrlen (k + 1) hQ
        have hcnt : k + 1 + bitems'.length = k + (bitems'.length + 1) := by omega
        refine ⟨([], phB k, fence ++ i ++ fence) :: bitems', lend', ?_, ?_, ?_, ?_, ?_⟩
        · have e1 : (blockPass ((c :: l') ++ Q) k).1 =
              phB k ++ (blockPass (lrest ++ Q) (k + 1)).1 := by
            rw [hstep, har]
          rw [e1, h1, hcnt]
          simp [entsFlat]
        · have e2 : (blockPass ((c :: l') ++ Q) k).2.1 =
              (phB k, fence ++ i ++ fence) :: (blockPass (lrest ++ Q) (k + 1)).2.1 := by
            rw [hstep, har]
          rw [e2, h2, hcnt]
          rfl
        · have e3 : (blockPass ((c :: l') ++ Q) k).2.2 =
              (blockPass (lrest ++ Q) (k + 1)).2.2 := by
            rw [hstep, har]
          rw [e3, h3, hcnt]
          rfl
        · rw [hlr]
          simp only [entsOrig, List.nil_append, List.append_assoc]
          rw [h4]
        · show phB k :: entPhs bitems' = (List.range' k (bitems'.length + 1)).map phB
          rw [h5, List.range'_succ k bitems'.length 1]
          simp

theorem perm_swap_append {α : Type} (X Y Z : List α) :
    (X ++ (Y ++ Z)).Perm (Y ++ (X ++ Z)) := by
  have h1 : X ++ (Y ++ Z) = (X ++ Y) ++ Z := by rw [List.append_assoc]
  have h2 : Y ++ (X ++ Z) = (Y ++ X) ++ Z := by rw [List.append_assoc]
  rw [h1, h2]
  exact List.perm_append_comm.append_right Z

theorem entPairs_fst (items : List Ent) :
    (entPairs items).map Prod.fst = entPhs items := by
  show (items.map (fun e => (e.2.1, e.2.2))).map Prod.fst = items.map (fun e => e.2.1)
  rw [List.map_map]
  rfl

theorem range'_append_nat (s m n : Nat) :
    List.range' s m ++ List.range' (s + m) n = List.range' s (m + n) := by
  have h := List.range'_append s m n 1
  rw [Nat.one_mul] at h
  rw [Nat.add_comm m n]
  exact h

/-- Running the block pass over the guarded side of an inline layout yields
a refined layout: originals are preserved, the recorded pairs of the new
layout are (up to order) the old pairs plus the block pairs the pass
returns, and the block placeholders are a fresh consecutive range. -/
theorem blockPass_layout : ∀ (items0 : List Ent) (hend0 : Str) (k : Nat),
    entsWf items0 →
    ∃ items hend,
      (blockPass (entsFlat items0 ++ hend0) k).1 = entsFlat items ++ hend ∧
      List.Perm (entPairs items)
        (entPairs items0 ++ (blockPass (entsFlat items0 ++ hend0) k).2.1) ∧
      entsOrig items ++ hend = entsOrig items0 ++ hend0 ∧
      entsWf items ∧
      List.Perm (entPhs items)
        (entPhs items0 ++ ((blockPass (entsFlat items0 ++ hend0) k).2.1.map Prod.fst)) ∧
      (blockPass (entsFlat items0 ++ hend0) k).2.1.map Prod.fst =
        (List.range' k ((blockPass (entsFlat items0 ++ hend0) k).2.1.length)).map phB := by
  intro items0
  induction items0 with
  | nil =>
    intro hend0 k _
    obtain ⟨bitems, lend, h1, h2, h3, h4, h5⟩ :=
      blockPass_chunk hend0.length hend0 (le_refl _) k (Or.inl rfl)
    have hS : entsFlat ([] : List Ent) ++ hend0 = hend0 ++ [] := by
      simp [entsFlat]
    have hp1 : (blockPass (entsFlat ([] : List Ent) ++ hend0) k).1 =
        entsFlat bitems ++ lend := by
      rw [hS, h1, blockPass_nil]
      simp
    have hp2 : (blockPass (entsFlat ([] : List Ent) ++ hend0) k).2.1 =
        entPairs bitems := by
      rw [hS, h2, blockPass_nil]
      simp
    have hp3 : entsOrig bitems ++ lend = entsOrig ([] : List Ent) ++ hend0 := by
      rw [h4]
      rfl
    refine ⟨bitems, lend, hp1, ?_, hp3, ?_, ?_, ?_⟩
    · rw [hp2]
      exact List.Perm.refl _
    · intro x hx
      have hxm : x.2.1 ∈ entPhs bitems := by
        simp only [entPhs, List.mem_map]
        exact ⟨x, hx, rfl⟩
      rw [h5] at hxm
      obtain ⟨j, -, hj⟩ := List.mem_map.mp hxm
      exact Or.inr ⟨j, hj.symm⟩
    · rw [hp2, entPairs_fst]
      exact List.Perm.refl _
    · rw [hp2, entPairs_fst, h5]
      have hlen : (entPairs bitems).length = bitems.length := by
        simp [entPairs]
      rw [hlen]
  | cons e items0' ih =>
    intro hend0 k hwf
    have hS : entsFlat (e :: items0') ++ hend0 =
        e.1 ++ (e.2.1 ++ (entsFlat items0' ++ hend0)) := by
      simp [entsFlat]
    obtain ⟨s', k', hq, hok', hkind'⟩ := phwf_mk (hwf e (by simp))
    have hQhead : e.2.1 ++ (entsFlat items0' ++ hend0) = [] ∨
        ∃ Z, e.2.1 ++ (entsFlat items0' ++ hend0) = '_' :: Z := by
      refine Or.inr ⟨('_' :: (s' ++ '_' :: (natStr k' ++ ['_', '_']))) ++
        (entsFlat items0' ++ hend0), ?_⟩
      rw [hq]
      rfl
    obtain ⟨bitems, lend, hc1, hc2, hc3, hc4, hc5⟩ :=
      blockPass_chunk e.1.length e.1 (le_refl _) k hQhead
    have hskip : blockPass (e.2.1 ++ (entsFlat items0' ++ hend0)) (k + bitems.length) =
        (e.2.1 ++ (blockPass (entsFlat items0' ++ hend0) (k + bitems.length)).1,
          (blockPass (entsFlat items0' ++ hend0) (k + bitems.length)).2) :=
      blockPass_skip e.2.1 (k + bitems.length) (ph_not_bq (hwf e (by simp)))
    obtain ⟨items', hend', hi1, hi2, hi3, hi4, hi5, hi6⟩ :=
      ih hend0 (k + bitems.length) (fun x hx => hwf x (by simp [hx]))
    have hp1cmp : (blockPass (entsFlat (e :: items0') ++ hend0) k).1 =
        entsFlat bitems ++ (lend ++ (e.2.1 ++ (entsFlat items' ++ hend'))) := by
      rw [hS, hc1, hskip]
      rw [hi1]
    have hp21 : (blockPass (entsFlat (e :: items0') ++ hend0) k).2.1 =
        entPairs bitems ++ (blockPass (entsFlat items0' ++ hend0)
          (k + bitems.length)).2.1 := by
      rw [hS, hc2, hskip]
    refine ⟨bitems ++ (lend, e.2.1, e.2.2) :: items', hend', ?_, ?_, ?_, ?_, ?_, ?_⟩
    · rw [hp1cmp, entsFlat_append]
      simp [entsFlat]
    · rw [hp21]
      have hpe : entPairs (bitems ++ (lend, e.2.1, e.2.2) :: items') =
          entPairs bitems ++ ((e.2.1, e.2.2) :: entPairs items') := by
        rw [entPairs_append]
        rfl
      rw [hpe]
      refine List.Perm.trans List.perm_middle ?_
      have hcons : entPairs (e :: items0') ++ (entPairs bitems ++
          (blockPass (entsFlat items0' ++ hend0) (k + bitems.length)).2.1) =
          (e.2.1, e.2.2) :: (entPairs items0' ++ (entPairs bitems ++
            (blockPass (entsFlat items0' ++ hend0) (k + bitems.length)).2.1)) := rfl
      rw [hcons]
      exact List.Perm.cons _
        ((hi2.append_left (entPairs bitems)).trans (perm_swap_append _ _ _))
    · rw [entsOrig_append]
      simp only [entsOrig, List.append_assoc]
      rw [hi3]
      rw [← List.append_assoc, hc4]
    · intro x hx
      rcases List.mem_append.mp hx with hx | hx
      · have hxm : x.2.1 ∈ entPhs bitems := by
          simp only [entPhs, List.mem_map]
          exact ⟨x, hx, rfl⟩
        rw [hc5] at hxm
        obtain ⟨j, -, hj⟩ := List.mem_map.mp hxm
        exact Or.inr ⟨j, hj.symm⟩
      · rcases List.mem_cons.mp hx with rfl | hx
        · exact hwf e (by simp)
        · exact hi4 x hx
    · rw [hp21, List.map_append, entPairs_fst]
      have hpe : entPhs (bitems ++ (lend, e.2.1, e.2.2) :: items') =
          entPhs bitems ++ (e.2.1 :: entPhs items') := by
        rw [entPhs_append]
        rfl
      rw [hpe]
      refine List.Perm.trans List.perm_middle ?_
      have hcons : entPhs (e :: items0') ++ (entPhs bitems ++
          ((blockPass (entsFlat items0' ++ hend0) (k + bitems.length)).2.1.map
            Prod.fst)) =
          e.2.1 :: (entPhs items0' ++ (entPhs bitems ++
            ((blockPass (entsFlat items0' ++ hend0) (k + bitems.length)).2.1.map
              Prod.fst))) := rfl
      rw [hcons]
      exact List.Perm.cons _
        ((hi5.append_left (entPhs bitems)).trans (perm_swap_append _ _ _))
    · rw [hp21, List.map_append, entPairs_fst, hc5, hi6]
      have hlen : (entPairs bitems ++ (blockPass (entsFlat items0' ++ hend0)
          (k + bitems.length)).2.1).length = bitems.length +
          ((blockPass (entsFlat items0' ++ hend0) (k + bitems.length)).2.1).length := by
        simp [entPairs]
      rw [hlen, ← List.map_append, range'_append_nat]

/-! #### Distinctness of the generated placeholders -/

theorem mkPh_inj_counter {stem : Str} {a b : Nat} (h : mkPh stem a = mkPh stem b) :
    a = b := by
  unfold mkPh at h
  injection h with _ h1
  injection h1 with _ h2
  have h3 := List.append_cancel_left h2
  injection h3 with _ h4
  exact natStr_inj (List.append_cancel_right h4)

theorem phI_injective : Function.Injective phI := by
  intro a b h
  rw [phI_mkPh, phI_mkPh] at h
  exact mkPh_inj_counter h

theorem phB_injective : Function.Injective phB := by
  intro a b h
  rw [phB_mkPh, phB_mkPh] at h
  exact mkPh_inj_counter h

theorem phI_ne_phB (a b : Nat) : phI a ≠ phB b := by
  intro h
  rw [phI_mkPh, phB_mkPh] at h
  unfold mkPh at h
  injection h with _ h1
  injection h1 with _ h2
  have hIc : stemI = 'I' :: "NLINE_CODE".data := rfl
  have hBc : stemB = 'C' :: "ODE_BLOCK".data := rfl
  rw [hIc, hBc] at h2
  simp only [List.cons_append] at h2
  injection h2 with h3 _
  exact absurd h3 (by decide)

theorem phs_concat_nodup (n kb m : Nat) :
    ((List.range' 0 n).map phI ++ (List.range' kb m).map phB).Nodup := by
  rw [List.nodup_append]
  refine ⟨(List.nodup_range' 0 n).map phI_injective,
    (List.nodup_range' kb m).map phB_injective, ?_⟩
  intro x hx hx'
  obtain ⟨a, -, ha⟩ := List.mem_map.mp hx
  obtain ⟨b, -, hb⟩ := List.mem_map.mp hx'
  exact phI_ne_phB a b (ha.trans hb.symm)

/-- Claim C4 (amended): restoring immediately after protecting reproduces
the body exactly, for every body — with any number of inline or fenced code
regions — that does not contain the placeholder stems `INLINE_CODE` or
`CODE_BLOCK` and contains no dollar character. -/
theorem protect_restore_roundtrip_of_safe (body : Str)
    (hI : hasSub body stemI = false) (hB : hasSub body stemB = false)
    (hD : dollar ∉ body) :
    restoreCodeBlocks (protectCodeBlocks body).1 (protectCodeBlocks body).2 = body := by
  obtain ⟨items0, hend0, hL1, hL2, hL3, hL4, hL5⟩ :=
    inlinePass_layout body.length body (le_refl _) 0
  have hwf0 : entsWf items0 := by
    intro e he
    have hm : e.2.1 ∈ entPhs items0 := by
      simp only [entPhs, List.mem_map]
      exact ⟨e, he, rfl⟩
    rw [hL5] at hm
    obtain ⟨j, -, hj⟩ := List.mem_map.mp hm
    exact Or.inl ⟨j, hj.symm⟩
  obtain ⟨items, hend, hB1p, hB2p, hB3p, hB4p, hB5p, hB6p⟩ :=
    blockPass_layout items0 hend0 ((inlinePass body 0).2.2) hwf0
  have hprot1 : (protectCodeBlocks body).1 =
      (blockPass (entsFlat items0 ++ hend0) (inlinePass body 0).2.2).1 := by
    show (blockPass (inlinePass body 0).1 (inlinePass body 0).2.2).1 = _
    rw [hL1]
  have hprot2 : (protectCodeBlocks body).2 =
      entPairs items0 ++
        (blockPass (entsFlat items0 ++ hend0) (inlinePass body 0).2.2).2.1 := by
    show (inlinePass body 0).2.1 ++
      (blockPass (inlinePass body 0).1 (inlinePass body 0).2.2).2.1 = _
    rw [hL1, hL2]
  have hcond : entsOrig items ++ hend = body := by
    rw [hB3p, hL3]
  have hnodup : (entPhs items).Nodup := by
    have hcc : (entPhs items0 ++ ((blockPass (entsFlat items0 ++ hend0)
        (inlinePass body 0).2.2).2.1.map Prod.fst)).Nodup := by
      rw [hL5, hB6p]
      exact phs_concat_nodup items0.length _ _
    exact hB5p.symm.nodup hcc
  have hres := restore_layout
    (entPairs items0 ++
      (blockPass (entsFlat items0 ++ hend0) (inlinePass body 0).2.2).2.1)
    items hend hB2p hB4p hnodup (by rw [hcond]; exact hI)
    (by rw [hcond]; exact hB) (by rw [hcond]; exact hD)
  rw [hprot1, hprot2, hB1p, hres, hcond]

/-- The amended round trip at a concrete body containing one inline span
and one fenced block. -/
theorem protect_restore_roundtrip_of_safe_witness :
    hasSub "a `x` b``````c".data stemI = false ∧
    hasSub "a `x` b``````c".data stemB = false ∧
    dollar ∉ "a `x` b``````c".data ∧
    restoreCodeBlocks (protectCodeBlocks "a `x` b``````c".data).1
      (protectCodeBlocks "a `x` b``````c".data).2 = "a `x` b``````c".data :=
  ⟨by decide, by decide, by decide,
    protect_restore_roundtrip_of_safe _ (by decide) (by decide) (by decide)⟩

end ObsidianTranslate
